import Mathlib

/-!
Verification of the core round / betting / resolution logic of the
Sniper Holdem dealer (src/components/Dealer.tsx), shallowly embedded in
Lean.  Card values are naturals, chip amounts are integers (JS numbers
used only with integer arithmetic), the per-game store document is a
`Game` structure carrying the dealer record and the player map (an
association list in JS object insertion order).  Randomness is embedded
by passing explicit streams of raw random naturals; a random index into
a pool of size n is modelled as `r % n`, which ranges over exactly the
indices the source can pick.
-/

namespace Sniper

/-- Hand categories are the literal strings the source uses. -/
abbrev Category := String

/-- The phase field of the dealer record (source union type bet1 / bet2 / snipe). -/
inductive Phase
  | bet1
  | bet2
  | snipe
deriving DecidableEq, Repr

/-- The four betting actions accepted by submitBet. -/
inductive BetAction
  | fold
  | check
  | call
  | raise
deriving DecidableEq, Repr

/-- Per-player fields as stored under players/<id> in the game document. -/
structure PlayerState where
  chips : Int
  bet : Int
  folded : Bool
  hasActed : Bool
  snipedPrediction : Option Category
  hand : List Nat
  draw : Nat
  lastAction : Option String
  lastActionAmount : Option Int
deriving DecidableEq, Repr

/-- One entry of the snipeResults list of a round record. -/
structure SnipeResult where
  sniperId : String
  predicted : Option Category
  success : Bool
deriving DecidableEq, Repr

/-- The winningHand sub-record of a round record. -/
structure WinningHand where
  playerId : String
  handType : Category
  score : Int
  cards : List Nat
deriving DecidableEq, Repr

/-- A round record appended to dealer.roundResults at resolution. -/
structure RoundResult where
  roundNumber : Nat
  winnerId : String
  winningHand : Option WinningHand
  pot : Int
  snipeResults : List SnipeResult
  playerChips : List (String × Int)
  chipChanges : List (String × Int)
deriving DecidableEq, Repr

/-- One entry of dealer.actionHistory (written by logAction). -/
structure LogEntry where
  playerId : String
  action : String
  amount : Option Int
  pot : Int
  chips : List (String × Int)
  phase : Phase
deriving DecidableEq, Repr

/-- The dealer record of the game document. -/
structure DealerState where
  phase : Phase
  currentTurn : Nat
  turnOrder : List String
  communityCards : List Nat
  pot : Int
  currentBet : Int
  draws : List (String × Nat)
  roundNumber : Nat
  roundResults : List RoundResult
  actionHistory : List LogEntry
  acted : List String
deriving DecidableEq, Repr

/-- The whole game document: dealer record plus the players map, kept as an
association list in JS object insertion order. -/
structure Game where
  dealer : DealerState
  players : List (String × PlayerState)
deriving DecidableEq, Repr

/-- Placeholder player used to give lookups a total type; every theorem
that reads a player carries the membership facts that make this value
irrelevant. -/
def defaultPlayer : PlayerState :=
  { chips := 0, bet := 0, folded := false, hasActed := false,
    snipedPrediction := none, hand := [], draw := 0,
    lastAction := none, lastActionAmount := none }

/-- Read players[id] (first binding of the key in the association list). -/
def getP (g : Game) (id : String) : PlayerState :=
  (g.players.lookup id).getD defaultPlayer

/-- Point update of players[id]; entries with other keys are unchanged. -/
def updateP : List (String × PlayerState) → String →
    (PlayerState → PlayerState) → List (String × PlayerState)
  | [], _, _ => []
  | kv :: rest, id, f =>
    (if kv.1 = id then (kv.1, f kv.2) else kv) :: updateP rest id f

/-- Sum of all chip fields of the players map. -/
def chipSum (ps : List (String × PlayerState)) : Int :=
  (ps.map fun kv => kv.2.chips).sum

/-- createDeck: four copies of each value 1..10, 40 cards. -/
def createDeck : List Nat :=
  (List.range 4).flatMap fun _ => (List.range 10).map (· + 1)

/-- getRandomCard: remove and return the card at a uniformly random index
of the pool; the raw random natural r picks index r % length.  On an
empty pool the source would splice undefined; we return a junk card. -/
def getRandomCard (deck : List Nat) (r : Nat) : Nat × List Nat :=
  if h : deck.length = 0 then (0, deck)
  else
    let idx := r % deck.length
    (deck.get ⟨idx, Nat.mod_lt _ (Nat.pos_of_ne_zero h)⟩, deck.eraseIdx idx)

/-! ## Hand evaluator (evaluateHand) -/

/-- Object.values(counts): the occurrence count of each distinct card value. -/
def handValues (cards : List Nat) : List Nat :=
  cards.dedup.map fun v => cards.count v

/-- The distinct card values sorted ascending (the straight scan list). -/
def distinctSorted (cards : List Nat) : List Nat :=
  cards.dedup.insertionSort (· ≤ ·)

/-- The sliding-window scan of the straight check: some window of width 5
over the sorted distinct values spans exactly 4. -/
def hasWindow (s : List Nat) : Bool :=
  (List.range s.length).any fun i =>
    decide (i + 4 < s.length) && (s.getD (i + 4) 0 - s.getD i 0 == 4)

/-- The straight predicate of evaluateHand. -/
def isStraight (cards : List Nat) : Bool :=
  let sorted := distinctSorted cards
  if sorted.length < 5 then false else hasWindow sorted

/-- Object.keys(counts) sorted descending: the informational tiebreak list. -/
def sortedValuesDesc (cards : List Nat) : List Nat :=
  cards.dedup.insertionSort (· ≥ ·)

/-- evaluateHand: category name, score and descending distinct values. -/
def evaluateHand (cards : List Nat) : Category × Int × List Nat :=
  let values := handValues cards
  let sortedValues := sortedValuesDesc cards
  if values.contains 4 then ("four of a kind", 7, sortedValues)
  else if values.contains 3 && values.contains 2 then ("full house", 6, sortedValues)
  else if isStraight cards then ("straight", 5, sortedValues)
  else if values.contains 3 then ("three of a kind", 4, sortedValues)
  else if (values.filter (· == 2)).length == 2 then ("two pair", 3, sortedValues)
  else if values.contains 2 then ("pair", 2, sortedValues)
  else ("high card", 1, sortedValues)

/-! ## Specification-side hand classification (from the claim wording) -/

/-- Some value occurs exactly n times. -/
def hasOfAKind (cards : List Nat) (n : Nat) : Prop :=
  ∃ v ∈ cards, cards.count v = n

instance (cards : List Nat) (n : Nat) : Decidable (hasOfAKind cards n) := by
  unfold hasOfAKind; infer_instance

/-- Some value has count 3 and a different value has count 2. -/
def fullHouseSpec (cards : List Nat) : Prop :=
  ∃ v ∈ cards, ∃ w ∈ cards, v ≠ w ∧ cards.count v = 3 ∧ cards.count w = 2

instance (cards : List Nat) : Decidable (fullHouseSpec cards) := by
  unfold fullHouseSpec; infer_instance

/-- The distinct values contain 5 consecutive integers. -/
def straightSpec (cards : List Nat) : Prop :=
  ∃ a ∈ cards, ∀ k < 5, (a + k) ∈ cards

instance (cards : List Nat) : Decidable (straightSpec cards) := by
  unfold straightSpec; infer_instance

/-- Exactly two distinct values have count 2. -/
def twoPairSpec (cards : List Nat) : Prop :=
  ∃ v ∈ cards, ∃ w ∈ cards, v ≠ w ∧ cards.count v = 2 ∧ cards.count w = 2 ∧
    ∀ u ∈ cards, cards.count u = 2 → u = v ∨ u = w

instance (cards : List Nat) : Decidable (twoPairSpec cards) := by
  unfold twoPairSpec; infer_instance

/-- The category and score the claimed priority order assigns to a hand. -/
def specEval (cards : List Nat) : Category × Int :=
  if hasOfAKind cards 4 then ("four of a kind", 7)
  else if fullHouseSpec cards then ("full house", 6)
  else if straightSpec cards then ("straight", 5)
  else if hasOfAKind cards 3 then ("three of a kind", 4)
  else if twoPairSpec cards then ("two pair", 3)
  else if hasOfAKind cards 2 then ("pair", 2)
  else ("high card", 1)

/-! ## Turn sequencing loops -/

/-- The do-while of submitBet: step to the next index, then keep stepping
past folded seats; the safety counter allows 2·L conditioned repeats,
after which one final unconditional step is kept.  Called with
fuel = 2 · turnOrder.length. -/
def nextTurn (skip : Nat → Bool) (L : Nat) (idx : Nat) : Nat → Nat
  | 0 => (idx + 1) % L
  | fuel + 1 =>
    let i := (idx + 1) % L
    if skip i then nextTurn skip L i fuel else i

/-- The while-loops of foldPlayer and submitSnipe: stay put if the current
seat is acceptable, otherwise step, with at most L conditioned steps.
Called on the already-advanced index with fuel = turnOrder.length. -/
def skipLoop (skip : Nat → Bool) (L : Nat) (idx : Nat) : Nat → Nat
  | 0 => idx
  | fuel + 1 => if skip idx then skipLoop skip L ((idx + 1) % L) fuel else idx

/-! ## Betting engine (submitBet) -/

/-- The validation block of submitBet (its early returns).  True exactly
when the action will be executed. -/
def betAccepted (g : Game) (pid : String) (action : BetAction)
    (amount : Option Int) : Bool :=
  match g.players.lookup pid with
  | none => false
  | some player =>
    if g.dealer.turnOrder.get? g.dealer.currentTurn ≠ some pid then false
    else if player.folded then false
    else if g.dealer.phase ≠ Phase.bet1 ∧ g.dealer.phase ≠ Phase.bet2 then false
    else
      let toCall : Int := g.dealer.currentBet - player.bet
      match action with
      | .fold => true
      | .check => decide (toCall ≤ 0)
      | .call => decide (toCall ≤ player.chips)
      | .raise =>
        match amount with
        | none => false
        | some a =>
          if a ≤ g.dealer.currentBet then false
          else if a - player.bet ≤ toCall then false
          else decide (a - player.bet ≤ player.chips)

/-- The execute-action block of submitBet (fold / check / call / raise). -/
def executeBet (g : Game) (pid : String) (action : BetAction)
    (amount : Option Int) : Game :=
  let player := getP g pid
  let playerBet := player.bet
  let toCall : Int := g.dealer.currentBet - playerBet
  match action with
  | .fold =>
    { g with players := updateP g.players pid fun p =>
        { p with folded := true, lastAction := some "fold", lastActionAmount := some 0 } }
  | .check =>
    { g with players := updateP g.players pid fun p =>
        { p with lastAction := some "check", lastActionAmount := some 0 } }
  | .call =>
    let callAmount := min toCall player.chips
    { dealer := { g.dealer with pot := g.dealer.pot + callAmount },
      players := updateP g.players pid fun p =>
        { p with
          chips := p.chips - callAmount
          bet := playerBet + callAmount
          lastAction := some "call"
          lastActionAmount := some callAmount } }
  | .raise =>
    let a := amount.getD 0
    let raiseAmount := a - playerBet
    { dealer :=
        { g.dealer with
          pot := g.dealer.pot + raiseAmount
          currentBet := a
          acted := [pid] },
      players := updateP g.players pid fun p =>
        { p with
          chips := p.chips - raiseAmount
          bet := a
          lastAction := some "raise"
          lastActionAmount := some raiseAmount } }

/-- Mark the acting player in the acted set (dealer.acted[playerId] = true). -/
def markActed (g : Game) (pid : String) : Game :=
  { g with dealer := { g.dealer with acted :=
      (if g.dealer.acted.contains pid then g.dealer.acted
       else g.dealer.acted ++ [pid]) } }

/-- turnOrder filtered to seats whose player is not folded. -/
def activePlayers (g : Game) : List String :=
  g.dealer.turnOrder.filter fun id => !(getP g id).folded

/-- Every active player is in the acted set and has matched the current bet. -/
def allActed (g : Game) : Bool :=
  (activePlayers g).all fun id =>
    g.dealer.acted.contains id && (getP g id).bet == g.dealer.currentBet

/-- The round-completion test of submitBet, evaluated on the post-action state. -/
def betsComplete (g : Game) : Bool :=
  allActed g || (activePlayers g).length == 1

/-- Zero the bet of a seated, non-folded player (the per-player part of
the completion block of submitBet). -/
def clearBetP (turnOrder : List String) (k : String) (v : PlayerState) :
    PlayerState :=
  if turnOrder.contains k && !v.folded then { v with bet := 0 } else v

/-- The completion block of submitBet: zero the bet of every non-folded
seat of the turn order, zero currentBet, clear the acted set. -/
def clearBets (g : Game) : Game :=
  { dealer := { g.dealer with currentBet := 0, acted := [] },
    players := g.players.map fun kv =>
      (kv.1, clearBetP g.dealer.turnOrder kv.1 kv.2) }

/-- The turn-advance block of submitBet. -/
def advanceTurn (g : Game) : Game :=
  let L := g.dealer.turnOrder.length
  let skip : Nat → Bool := fun i => (getP g (g.dealer.turnOrder.getD i "")).folded
  { g with dealer := { g.dealer with
      currentTurn := nextTurn skip L g.dealer.currentTurn (2 * L) } }

/-- logAction: append an entry to dealer.actionHistory. -/
def logAction (d : DealerState) (ps : List (String × PlayerState))
    (pid : String) (action : String) (amount : Option Int) : DealerState :=
  { d with actionHistory := d.actionHistory ++
      [{ playerId := pid
         action := action
         amount := amount
         pot := d.pot
         chips := ps.map fun kv => (kv.1, kv.2.chips)
         phase := d.phase }] }

/-! ## Phase controller (advancePhase) and the card pools it draws from -/

/-- All card values referenced by dealt hands and community cards, in the
order the source collects them (flatMap over player hands, then the
community cards). -/
def usedCards (ps : List (String × PlayerState)) (cc : List Nat) : List Nat :=
  (ps.map fun kv => kv.2.hand).flatten ++ cc

/-- The pool advancePhase and resolveBets draw replacement community cards
from: deck.filter(c => !used.includes(c)) — every card whose VALUE occurs
anywhere among the used cards is dropped from the full deck. -/
def remainingPool (ps : List (String × PlayerState)) (cc : List Nat) : List Nat :=
  createDeck.filter fun c => !(usedCards ps cc).contains c

/-- The per-player reset advancePhase applies (hasActed and the last
action display fields cleared; bets untouched). -/
def phaseResetP (v : PlayerState) : PlayerState :=
  { v with
    hasActed := false
    lastAction := none
    lastActionAmount := none }

/-- The per-phase reset advancePhase applies before switching phase. -/
def phaseReset (g : Game) : Game :=
  { dealer := { g.dealer with currentBet := 0, currentTurn := 0, acted := [] },
    players := g.players.map fun kv => (kv.1, phaseResetP kv.2) }

/-- The bet1 branch of advancePhase: push two cards drawn from the
remaining pool and enter bet2. -/
def dealBet2 (r1 r2 : Nat) (g : Game) : Game :=
  let remaining := remainingPool g.players g.dealer.communityCards
  let d1 := getRandomCard remaining r1
  let d2 := getRandomCard d1.2 r2
  { g with dealer := { g.dealer with
      communityCards := g.dealer.communityCards ++ [d1.1, d2.1],
      phase := Phase.bet2 } }

/-! ## Resolution engine (resolveBets, before the new-round handoff) -/

/-- The force-reveal loop of resolveBets: draw from the remaining pool
until 4 community cards are present (each pass consumes one random). -/
def revealLoop (cc remaining rs : List Nat) : Nat → List Nat
  | 0 => cc
  | fuel + 1 =>
    if cc.length < 4 then
      let d := getRandomCard remaining (rs.headD 0)
      revealLoop (cc ++ [d.1]) d.2 rs.tail fuel
    else cc

/-- The community cards resolveBets scores against: the existing ones,
force-revealed up to 4 if short. -/
def revealedCC (rs : List Nat) (g : Game) : List Nat :=
  if g.dealer.communityCards.length < 4 then
    revealLoop g.dealer.communityCards
      (remainingPool g.players g.dealer.communityCards) rs 4
  else g.dealer.communityCards

/-- The ids resolveBets evaluates hands for: every non-folded player, in
players-map order. -/
def handIds (g : Game) : List String :=
  (g.players.filter fun kv => !kv.2.folded).map fun kv => kv.1

/-- hands[id]: the evaluation of the two cards of id plus the community cards. -/
def handEval (g : Game) (cc : List Nat) (id : String) : Category × Int × List Nat :=
  evaluateHand ((getP g id).hand ++ cc)

/-- The sniped set: players whose evaluated category equals some
evaluated player prediction. -/
def snipedIds (g : Game) (cc : List Nat) : List String :=
  (handIds g).filter fun id =>
    (handIds g).any fun sniper =>
      (getP g sniper).snipedPrediction == some (handEval g cc id).1

/-- The eligible set: evaluated, not sniped, not folded. -/
def eligibleIds (g : Game) (cc : List Nat) : List String :=
  (handIds g).filter fun id =>
    !(snipedIds g cc).contains id && !(getP g id).folded

/-- The winner scan of resolveBets: first id whose score strictly exceeds
the running maximum, starting from the pair of the empty id and 0. -/
def findWinner (score : String → Int) (elig : List String) : String × Int :=
  elig.foldl (fun acc id => if score id > acc.2 then (id, score id) else acc) ("", 0)

/-- The per-player transient reset resolveBets applies after the
distribution (bet, folded, hasActed, prediction, last action cleared). -/
def roundResetP (v : PlayerState) : PlayerState :=
  { v with
    bet := 0
    folded := false
    hasActed := false
    snipedPrediction := none
    lastAction := none
    lastActionAmount := none }

/-- The recorded winner id of the resolution: the sentinel split value
when no one is eligible, else the first highest-scoring eligible player. -/
def potWinner (g : Game) (cc : List Nat) : String :=
  if (eligibleIds g cc).length == 0 then "split"
  else (findWinner (fun id => (handEval g cc id).2.1) (eligibleIds g cc)).1

/-- The pot distribution of the resolution: floor-split among every
player when no one is eligible, else the full pot to the winner. -/
def distributePot (g : Game) (cc : List Nat) : List (String × PlayerState) :=
  if (eligibleIds g cc).length == 0 then
    let each := g.dealer.pot.fdiv (g.players.length : Int)
    g.players.map fun kv => (kv.1, { kv.2 with chips := kv.2.chips + each })
  else
    updateP g.players (findWinner (fun id => (handEval g cc id).2.1) (eligibleIds g cc)).1
      fun p => { p with chips := p.chips + g.dealer.pot }

/-- Everything resolveBets does to the game document before handing off
to startNewRound: force-reveal, hand evaluation, snipe marking, pot
distribution, round record, transient resets. -/
def resolveBetsCore (rs : List Nat) (g : Game) : Game :=
  let cc := revealedCC rs g
  let ids := handIds g
  let playerChips := g.players.map fun kv => (kv.1, kv.2.chips)
  let winnerId := potWinner g cc
  let players1 := distributePot g cc
  let chipChanges := players1.map fun kv =>
    (kv.1, kv.2.chips - ((playerChips.lookup kv.1).getD 0))
  let roundResult : RoundResult :=
    { roundNumber := g.dealer.roundNumber
      winnerId := winnerId
      winningHand :=
        if winnerId == "split" then none
        else some { playerId := winnerId, handType := (handEval g cc winnerId).1,
                    score := (handEval g cc winnerId).2.1,
                    cards := (getP g winnerId).hand ++ cc }
      pot := g.dealer.pot
      snipeResults := ids.map fun sid =>
        { sniperId := sid, predicted := (getP g sid).snipedPrediction,
          success := ids.any fun id =>
            some (handEval g cc id).1 == (getP g sid).snipedPrediction }
      playerChips := playerChips
      chipChanges := chipChanges }
  { dealer := { g.dealer with
      communityCards := cc
      pot := 0
      currentBet := 0
      phase := Phase.bet1
      currentTurn := 0
      acted := []
      roundResults := g.dealer.roundResults ++ [roundResult] },
    players := players1.map fun kv => (kv.1, roundResetP kv.2) }

/-! ## Round setup (startGame, startNewRound) -/

/-- Deal two cards to each id in turn, threading the deck and the random
stream. -/
def dealHands (ids : List String) (deck rs : List Nat) :
    List (String × List Nat) :=
  match ids with
  | [] => []
  | id :: rest =>
    let d1 := getRandomCard deck (rs.headD 0)
    let d2 := getRandomCard d1.2 (rs.tail.headD 0)
    (id, [d1.1, d2.1]) :: dealHands rest d2.2 (rs.tail.tail)

/-- The random draw values of startGame: one per player, each in 1..5. -/
def drawsFor (ps : List (String × PlayerState)) (rs : List Nat) :
    List (String × Nat) :=
  ps.enum.map fun p => (p.2.1, rs.getD p.1 0 % 5 + 1)

/-- startGame: re-draw turn order, reset per-round player fields (keeping
a non-zero chip count, resetting a zero one to 60 via the chips-or-60
default), deal two community cards and two hand cards per player, and
install a fresh dealer record for the next round number. -/
def startGame (rs : List Nat) (g : Game) : Game :=
  let draws := drawsFor g.players rs
  let drawOf : String → Nat := fun id => (draws.lookup id).getD 0
  let turnOrder := (g.players.map fun kv => kv.1).insertionSort
    (fun a b => drawOf b ≤ drawOf a)
  let rs1 := rs.drop g.players.length
  let c1 := getRandomCard createDeck (rs1.headD 0)
  let c2 := getRandomCard c1.2 (rs1.tail.headD 0)
  let hands := dealHands (g.players.map fun kv => kv.1) c2.2 (rs1.tail.tail)
  { dealer := { phase := Phase.bet1
                currentTurn := 0
                turnOrder := turnOrder
                communityCards := [c1.1, c2.1]
                pot := 0
                currentBet := 0
                draws := draws
                roundNumber := g.dealer.roundNumber + 1
                roundResults := g.dealer.roundResults
                actionHistory := []
                acted := [] },
    players := g.players.map fun kv => (kv.1,
      { chips := if kv.2.chips == (0 : Int) then 60 else kv.2.chips
        bet := 0
        folded := false
        hasActed := false
        snipedPrediction := none
        hand := (hands.lookup kv.1).getD []
        draw := drawOf kv.1
        lastAction := none
        lastActionAmount := none }) }

/-- The transient resets startNewRound performs before re-invoking
startGame (they repeat the resets resolveBets already made). -/
def startNewRoundReset (g : Game) : Game :=
  { dealer := { g.dealer with
                pot := 0
                currentBet := 0
                phase := Phase.bet1
                currentTurn := 0
                acted := [] },
    players := g.players.map fun kv =>
      (kv.1, { kv.2 with
               bet := 0
               folded := false
               hasActed := false
               snipedPrediction := none
               lastAction := none
               lastActionAmount := none }) }

/-- resolveBets followed by its handoff: startNewRound and then startGame,
each acting on the state the previous step produced. -/
def resolveBetsFull (rs rsB : List Nat) (g : Game) : Game :=
  startGame rsB (startNewRoundReset (resolveBetsCore rs g))

/-- advancePhase: per-phase reset, then switch bet1 → bet2 (dealing two
community cards), bet2 → snipe, or resolve out of snipe. -/
def advancePhase (rs rsB : List Nat) (g : Game) : Game :=
  let g1 := phaseReset g
  match g1.dealer.phase with
  | Phase.bet1 =>
    let g2 := dealBet2 (rs.headD 0) (rs.tail.headD 0) g1
    { g2 with dealer := logAction g2.dealer g2.players "" "phase" none }
  | Phase.bet2 =>
    let g2 := { g1 with dealer := { g1.dealer with phase := Phase.snipe } }
    { g2 with dealer := logAction g2.dealer g2.players "" "phase" none }
  | Phase.snipe => resolveBetsFull rs rsB g1

/-- submitBet: validate, execute, mark acted, then either finish the
betting phase or advance the turn. -/
def submitBet (rs rsB : List Nat) (g : Game) (pid : String)
    (action : BetAction) (amount : Option Int) : Game :=
  if betAccepted g pid action amount then
    let g1 := markActed (executeBet g pid action amount) pid
    if betsComplete g1 then advancePhase rs rsB (clearBets g1)
    else advanceTurn g1
  else g

/-- foldPlayer: only the whose-turn check guards it; it folds the player,
sets hasActed, advances the turn past folded or already-acted seats, and
logs the fold. -/
def foldPlayer (g : Game) (pid : String) : Game :=
  if g.dealer.turnOrder.get? g.dealer.currentTurn ≠ some pid then g
  else
    let players1 := updateP g.players pid fun p =>
      { p with folded := true, hasActed := true }
    let L := g.dealer.turnOrder.length
    let skip : Nat → Bool := fun i =>
      let q := (players1.lookup (g.dealer.turnOrder.getD i "")).getD defaultPlayer
      q.folded || q.hasActed
    let nextIdx := skipLoop skip L ((g.dealer.currentTurn + 1) % L) L
    let d1 := { g.dealer with currentTurn := nextIdx }
    { dealer := logAction d1 players1 pid "fold" none, players := players1 }

/-- The fixed prediction vocabulary submitSnipe accepts. -/
def validPredictions : List Category :=
  ["high card", "pair", "two pair", "three of a kind", "straight",
   "full house", "four of a kind"]

/-- The validation block of submitSnipe (its early returns): phase, turn,
fold status, single submission, prediction vocabulary. -/
def snipeAccepted (g : Game) (pid : String) (prediction : Category) : Bool :=
  match g.players.lookup pid with
  | none => false
  | some player =>
    if g.dealer.phase ≠ Phase.snipe then false
    else if g.dealer.turnOrder.get? g.dealer.currentTurn ≠ some pid then false
    else if player.folded then false
    else if player.snipedPrediction.isSome then false
    else validPredictions.contains prediction

/-- The mutation block of submitSnipe: record the prediction, log it,
resolve if every active player has predicted, else advance the turn past
folded or already-predicted seats. -/
def executeSnipe (rs rsB : List Nat) (g : Game) (pid : String)
    (prediction : Category) : Game :=
  let players1 := updateP g.players pid fun p =>
    { p with
      snipedPrediction := some prediction
      lastAction := some "snipe"
      lastActionAmount := some 0 }
  let d1 := logAction g.dealer players1 pid "snipe" (some 0)
  let g1 : Game := { dealer := d1, players := players1 }
  let active := g1.dealer.turnOrder.filter fun id => !(getP g1 id).folded
  if active.all fun id => (getP g1 id).snipedPrediction.isSome then
    resolveBetsFull rs rsB g1
  else
    let L := g1.dealer.turnOrder.length
    let skip : Nat → Bool := fun i =>
      let q := getP g1 (g1.dealer.turnOrder.getD i "")
      q.folded || q.snipedPrediction.isSome
    { g1 with dealer := { g1.dealer with
        currentTurn := skipLoop skip L ((g1.dealer.currentTurn + 1) % L) L } }

/-- submitSnipe: the validation guard followed by the mutation block. -/
def submitSnipe (rs rsB : List Nat) (g : Game) (pid : String)
    (prediction : Category) : Game :=
  if snipeAccepted g pid prediction then executeSnipe rs rsB g pid prediction
  else g

/-! ## Association list lemmas -/

theorem updateP_cons (k : String) (v : PlayerState)
    (rest : List (String × PlayerState)) (id : String)
    (f : PlayerState → PlayerState) :
    updateP ((k, v) :: rest) id f =
      (if k = id then (k, f v) else (k, v)) :: updateP rest id f := rfl

theorem lookup_keys_none (ps : List (String × PlayerState)) (id : String)
    (h : id ∉ ps.map Prod.fst) : ps.lookup id = none := by
  induction ps with
  | nil => rfl
  | cons kv rest ih =>
    obtain ⟨k, v⟩ := kv
    have h1 : id ≠ k := fun e => h (by simp [e])
    have h2 : id ∉ rest.map Prod.fst := fun m => h (by simp [m])
    rw [List.lookup_cons]
    rw [beq_eq_false_iff_ne.mpr h1]
    exact ih h2

theorem lookup_mem_keys (ps : List (String × PlayerState)) (id : String)
    (p : PlayerState) (h : ps.lookup id = some p) : id ∈ ps.map Prod.fst := by
  by_contra hn
  rw [lookup_keys_none ps id hn] at h
  exact Option.noConfusion h

theorem updateP_not_mem (ps : List (String × PlayerState)) (id : String)
    (f : PlayerState → PlayerState) (h : id ∉ ps.map Prod.fst) :
    updateP ps id f = ps := by
  induction ps with
  | nil => rfl
  | cons kv rest ih =>
    obtain ⟨k, v⟩ := kv
    have h1 : id ≠ k := fun e => h (by simp [e])
    have h2 : id ∉ rest.map Prod.fst := fun m => h (by simp [m])
    rw [updateP_cons, if_neg (Ne.symm h1), ih h2]

theorem lookup_updateP_self (ps : List (String × PlayerState)) (id : String)
    (f : PlayerState → PlayerState) :
    (updateP ps id f).lookup id = (ps.lookup id).map f := by
  induction ps with
  | nil => rfl
  | cons kv rest ih =>
    obtain ⟨k, v⟩ := kv
    by_cases h : k = id
    · subst h
      rw [updateP_cons, if_pos rfl]
      simp
    · rw [updateP_cons, if_neg h, List.lookup_cons, List.lookup_cons,
        beq_eq_false_iff_ne.mpr (Ne.symm h), ih]

theorem lookup_updateP_ne (ps : List (String × PlayerState)) (id q : String)
    (f : PlayerState → PlayerState) (h : q ≠ id) :
    (updateP ps id f).lookup q = ps.lookup q := by
  induction ps with
  | nil => rfl
  | cons kv rest ih =>
    obtain ⟨k, v⟩ := kv
    by_cases hk : k = id
    · subst hk
      rw [updateP_cons, if_pos rfl, List.lookup_cons, List.lookup_cons,
        beq_eq_false_iff_ne.mpr h, ih]
    · rw [updateP_cons, if_neg hk, List.lookup_cons, List.lookup_cons]
      by_cases hq : q = k
      · subst hq
        rw [beq_self_eq_true]
      · rw [beq_eq_false_iff_ne.mpr hq, ih]

theorem keys_updateP (ps : List (String × PlayerState)) (id : String)
    (f : PlayerState → PlayerState) :
    (updateP ps id f).map Prod.fst = ps.map Prod.fst := by
  induction ps with
  | nil => rfl
  | cons kv rest ih =>
    obtain ⟨k, v⟩ := kv
    by_cases h : k = id
    · subst h
      rw [updateP_cons, if_pos rfl, List.map_cons, List.map_cons, ih]
    · rw [updateP_cons, if_neg h, List.map_cons, List.map_cons, ih]

theorem chipSum_cons (kv : String × PlayerState)
    (rest : List (String × PlayerState)) :
    chipSum (kv :: rest) = kv.2.chips + chipSum rest := by
  simp [chipSum]

theorem chipSum_updateP (ps : List (String × PlayerState)) (id : String)
    (f : PlayerState → PlayerState) (p : PlayerState)
    (hn : (ps.map Prod.fst).Nodup) (hl : ps.lookup id = some p) :
    chipSum (updateP ps id f) = chipSum ps - p.chips + (f p).chips := by
  induction ps with
  | nil => exact Option.noConfusion hl
  | cons kv rest ih =>
    obtain ⟨k, v⟩ := kv
    simp only [List.map_cons, List.nodup_cons] at hn
    by_cases h : k = id
    · subst h
      rw [List.lookup_cons_self] at hl
      obtain rfl : v = p := Option.some.inj hl
      rw [updateP_cons, if_pos rfl, updateP_not_mem rest k f hn.1,
        chipSum_cons, chipSum_cons]
      ring
    · have hb : (id == k) = false := beq_eq_false_iff_ne.mpr (Ne.symm h)
      rw [List.lookup_cons, hb] at hl
      rw [updateP_cons, if_neg h, chipSum_cons, chipSum_cons, ih hn.2 hl]
      ring

theorem chipSum_map_keep (ps : List (String × PlayerState))
    (F : String × PlayerState → String × PlayerState)
    (h : ∀ kv ∈ ps, (F kv).2.chips = kv.2.chips) :
    chipSum (ps.map F) = chipSum ps := by
  induction ps with
  | nil => rfl
  | cons kv rest ih =>
    rw [List.map_cons, chipSum_cons, chipSum_cons,
      h kv (List.mem_cons_self kv rest),
      ih (fun q hq => h q (List.mem_cons_of_mem kv hq))]

/-! ## Rejection behaviour of the mutating operations -/

theorem submitBet_not_accepted (rs rsB : List Nat) (g : Game) (pid : String)
    (action : BetAction) (amount : Option Int)
    (h : betAccepted g pid action amount = false) :
    submitBet rs rsB g pid action amount = g := by
  simp [submitBet, h]

theorem betAccepted_false_of_turn (g : Game) (pid : String)
    (action : BetAction) (amount : Option Int)
    (h : g.dealer.turnOrder.get? g.dealer.currentTurn ≠ some pid) :
    betAccepted g pid action amount = false := by
  unfold betAccepted
  cases hl : g.players.lookup pid with
  | none => rfl
  | some p =>
    dsimp only
    rw [if_pos h]

theorem betAccepted_false_of_folded (g : Game) (pid : String)
    (action : BetAction) (amount : Option Int)
    (h : (getP g pid).folded = true) :
    betAccepted g pid action amount = false := by
  unfold betAccepted
  cases hl : g.players.lookup pid with
  | none => rfl
  | some p =>
    have hp : p.folded = true := by simpa [getP, hl] using h
    dsimp only
    by_cases h1 : g.dealer.turnOrder.get? g.dealer.currentTurn ≠ some pid
    · rw [if_pos h1]
    · rw [if_neg h1, if_pos hp]

theorem betAccepted_false_of_phase (g : Game) (pid : String)
    (action : BetAction) (amount : Option Int)
    (h1 : g.dealer.phase ≠ Phase.bet1) (h2 : g.dealer.phase ≠ Phase.bet2) :
    betAccepted g pid action amount = false := by
  unfold betAccepted
  cases hl : g.players.lookup pid with
  | none => rfl
  | some p =>
    dsimp only
    by_cases ht : g.dealer.turnOrder.get? g.dealer.currentTurn ≠ some pid
    · rw [if_pos ht]
    · rw [if_neg ht]
      by_cases hf : p.folded
      · rw [if_pos hf]
      · rw [if_neg hf, if_pos ⟨h1, h2⟩]

theorem snipeAccepted_false (g : Game) (pid : String) (prediction : Category)
    (h : g.dealer.phase ≠ Phase.snipe ∨
         g.dealer.turnOrder.get? g.dealer.currentTurn ≠ some pid ∨
         (getP g pid).folded = true ∨
         (getP g pid).snipedPrediction.isSome = true ∨
         prediction ∉ validPredictions) :
    snipeAccepted g pid prediction = false := by
  unfold snipeAccepted
  cases hl : g.players.lookup pid with
  | none => rfl
  | some p =>
    have hg : getP g pid = p := by simp [getP, hl]
    rw [hg] at h
    dsimp only
    split_ifs with h1 h2 h3 h4
    · rfl
    · rfl
    · rfl
    · rfl
    · rcases h with h | h | h | h | h
      · exact absurd h h1
      · exact absurd h h2
      · exact absurd h (by simpa using h3)
      · exact absurd h (by simpa using h4)
      · simpa using h

theorem submitSnipe_noop (rs rsB : List Nat) (g : Game) (pid : String)
    (prediction : Category)
    (h : g.dealer.phase ≠ Phase.snipe ∨
         g.dealer.turnOrder.get? g.dealer.currentTurn ≠ some pid ∨
         (getP g pid).folded = true ∨
         (getP g pid).snipedPrediction.isSome = true ∨
         prediction ∉ validPredictions) :
    submitSnipe rs rsB g pid prediction = g := by
  rw [submitSnipe, snipeAccepted_false g pid prediction h]
  rfl

theorem foldPlayer_noop (g : Game) (pid : String)
    (h : g.dealer.turnOrder.get? g.dealer.currentTurn ≠ some pid) :
    foldPlayer g pid = g := by
  rw [foldPlayer, if_pos h]

/-! ## Concrete example states used by counterexamples and witnesses -/

/-- A player holding a pair of fives with 60 chips. -/
def pA : PlayerState := { defaultPlayer with chips := 60, hand := [5, 5] }

/-- A player holding 2 and 7 with 60 chips. -/
def pB : PlayerState := { defaultPlayer with chips := 60, hand := [2, 7] }

/-- A two-player first-betting-phase state with empty pot. -/
def gBet : Game where
  dealer :=
    { phase := Phase.bet1
      currentTurn := 0
      turnOrder := ["p1", "p2"]
      communityCards := [5, 9]
      pot := 0
      currentBet := 0
      draws := []
      roundNumber := 1
      roundResults := []
      actionHistory := []
      acted := [] }
  players := [("p1", pA), ("p2", pB)]

/-- A two-player snipe-phase state with a 20-chip pot. -/
def gSnipe : Game where
  dealer :=
    { phase := Phase.snipe
      currentTurn := 0
      turnOrder := ["p1", "p2"]
      communityCards := [5, 9, 3, 6]
      pot := 20
      currentBet := 0
      draws := []
      roundNumber := 1
      roundResults := []
      actionHistory := []
      acted := [] }
  players := [("p1", pA), ("p2", pB)]

/-- Claim C6 counterexample: a fold submitted through foldPlayer during the
snipe phase is not rejected — the acting player really is marked folded,
so the operation mutates state in a phase that admits no fold. -/
theorem C6_foldPlayer_snipe_mutates :
    gSnipe.dealer.phase = Phase.snipe ∧
    (getP gSnipe "p1").folded = false ∧
    (getP (foldPlayer gSnipe "p1") "p1").folded = true := by
  refine ⟨rfl, rfl, ?_⟩
  decide

/-- Claim C6 (amended): submitBet and submitSnipe re-validate every
precondition against the state they are given and are silent no-ops when
it is not the turn of the acting player, the player is folded, or the phase
does not admit the action (or the prediction is invalid or repeated);
foldPlayer re-validates only the whose-turn precondition and is a silent
no-op exactly in that case — it performs no fold-status or phase check. -/
theorem C6_validation_noop :
    (∀ rs rsB g pid action amount,
      (g.dealer.turnOrder.get? g.dealer.currentTurn ≠ some pid ∨
       (getP g pid).folded = true ∨
       (g.dealer.phase ≠ Phase.bet1 ∧ g.dealer.phase ≠ Phase.bet2)) →
      submitBet rs rsB g pid action amount = g) ∧
    (∀ rs rsB g pid prediction,
      (g.dealer.phase ≠ Phase.snipe ∨
       g.dealer.turnOrder.get? g.dealer.currentTurn ≠ some pid ∨
       (getP g pid).folded = true ∨
       (getP g pid).snipedPrediction.isSome = true ∨
       prediction ∉ validPredictions) →
      submitSnipe rs rsB g pid prediction = g) ∧
    (∀ g pid, g.dealer.turnOrder.get? g.dealer.currentTurn ≠ some pid →
      foldPlayer g pid = g) := by
  refine ⟨?_, ?_, ?_⟩
  · intro rs rsB g pid action amount h
    apply submitBet_not_accepted
    rcases h with h | h | h
    · exact betAccepted_false_of_turn g pid action amount h
    · exact betAccepted_false_of_folded g pid action amount h
    · exact betAccepted_false_of_phase g pid action amount h.1 h.2
  · intro rs rsB g pid prediction h
    exact submitSnipe_noop rs rsB g pid prediction h
  · intro g pid h
    exact foldPlayer_noop g pid h

/-- Witness for the amended C6 theorem at concrete states: a betting
action during the snipe phase, a snipe out of turn, and an out-of-turn
foldPlayer call are all silent no-ops. -/
theorem C6_validation_noop_witness :
    submitBet [] [] gSnipe "p1" BetAction.fold none = gSnipe ∧
    submitSnipe [] [] gSnipe "p2" "pair" = gSnipe ∧
    foldPlayer gSnipe "p2" = gSnipe :=
  ⟨C6_validation_noop.1 [] [] gSnipe "p1" BetAction.fold none
      (Or.inr (Or.inr (by decide))),
   C6_validation_noop.2.1 [] [] gSnipe "p2" "pair"
      (Or.inr (Or.inl (by decide))),
   C6_validation_noop.2.2 gSnipe "p2" (by decide)⟩

/-! ## Accepted raises (claim C4) -/

theorem mem_of_get?_eq (l : List String) (n : Nat) (a : String)
    (h : l.get? n = some a) : a ∈ l := by
  obtain ⟨hn, he⟩ := List.get?_eq_some.mp h
  exact he ▸ List.get_mem l n hn

theorem length_two_of_mem (l : List String) (a b : String)
    (ha : a ∈ l) (hb : b ∈ l) (hne : a ≠ b) : 2 ≤ l.length := by
  match l with
  | [] => exact absurd ha (List.not_mem_nil a)
  | [x] =>
    rw [List.mem_singleton] at ha hb
    exact absurd (ha.trans hb.symm) hne
  | x :: y :: rest => simp [Nat.le_add_left]

theorem getP_players_mk (d : DealerState) (ps : List (String × PlayerState))
    (id : String) : getP ⟨d, ps⟩ id = (ps.lookup id).getD defaultPlayer := rfl

/-- Claim C4: given the global preconditions of submitBet (it is the
turn of the player, the player is not folded, the phase is a betting phase), a
raise to total amount A is accepted exactly when A exceeds currentBet,
the added amount A - bet exceeds the amount to call, and the player can
afford A - bet; an accepted raise that leaves some other non-folded
player in the turn order moves exactly A - bet chips into the pot, sets
the bet of the raiser and currentBet to A, and leaves the acted set holding
only the raiser. -/
theorem C4_raise_contract (rs rsB : List Nat) (g : Game) (pid : String)
    (p : PlayerState) (A : Int)
    (hl : g.players.lookup pid = some p)
    (ht : g.dealer.turnOrder.get? g.dealer.currentTurn = some pid)
    (hf : p.folded = false)
    (hph : g.dealer.phase = Phase.bet1 ∨ g.dealer.phase = Phase.bet2) :
    (betAccepted g pid BetAction.raise (some A) = true ↔
      (g.dealer.currentBet < A ∧
       g.dealer.currentBet - p.bet < A - p.bet ∧
       A - p.bet ≤ p.chips)) ∧
    (betAccepted g pid BetAction.raise (some A) = true →
     ∀ q ∈ g.dealer.turnOrder, q ≠ pid → (getP g q).folded = false →
      ((getP (submitBet rs rsB g pid BetAction.raise (some A)) pid).chips
          = p.chips - (A - p.bet) ∧
       (getP (submitBet rs rsB g pid BetAction.raise (some A)) pid).bet = A ∧
       (submitBet rs rsB g pid BetAction.raise (some A)).dealer.pot
          = g.dealer.pot + (A - p.bet) ∧
       (submitBet rs rsB g pid BetAction.raise (some A)).dealer.currentBet = A ∧
       (submitBet rs rsB g pid BetAction.raise (some A)).dealer.acted = [pid])) := by
  have hnt : ¬g.dealer.turnOrder.get? g.dealer.currentTurn ≠ some pid :=
    not_not.mpr ht
  have hnf : ¬p.folded = true := by simp [hf]
  have hnph : ¬(g.dealer.phase ≠ Phase.bet1 ∧ g.dealer.phase ≠ Phase.bet2) := by
    rcases hph with h | h <;> simp [h]
  constructor
  · unfold betAccepted
    rw [hl]
    dsimp only
    rw [if_neg hnt, if_neg hnf, if_neg hnph]
    constructor
    · intro hacc
      by_cases h1 : A ≤ g.dealer.currentBet
      · rw [if_pos h1] at hacc
        exact Bool.noConfusion hacc
      · rw [if_neg h1] at hacc
        by_cases h2 : A - p.bet ≤ g.dealer.currentBet - p.bet
        · rw [if_pos h2] at hacc
          exact Bool.noConfusion hacc
        · rw [if_neg h2] at hacc
          exact ⟨by omega, by omega, by simpa using hacc⟩
    · rintro ⟨h1, h2, h3⟩
      rw [if_neg (show ¬A ≤ g.dealer.currentBet by omega),
        if_neg (show ¬A - p.bet ≤ g.dealer.currentBet - p.bet by omega)]
      simpa using h3
  · intro hacc q hq hqpid hqf
    have hgp : getP g pid = p := by simp [getP, hl]
    set fR : PlayerState → PlayerState := fun pl =>
      { pl with
        chips := pl.chips - (A - p.bet)
        bet := A
        lastAction := some "raise"
        lastActionAmount := some (A - p.bet) } with hfR
    have hexec : executeBet g pid BetAction.raise (some A) =
        { dealer := { g.dealer with
            pot := g.dealer.pot + (A - p.bet)
            currentBet := A
            acted := [pid] },
          players := updateP g.players pid fR } := by
      unfold executeBet
      rw [hgp]
      rfl
    set g1 := markActed (executeBet g pid BetAction.raise (some A)) pid with hg1
    have hg1e : g1 =
        { dealer := { g.dealer with
            pot := g.dealer.pot + (A - p.bet)
            currentBet := A
            acted := [pid] },
          players := updateP g.players pid fR } := by
      rw [hg1, hexec]
      unfold markActed
      simp
    have hlook1 : g1.players.lookup pid = some (fR p) := by
      rw [hg1e]
      simpa [lookup_updateP_self] using congrArg (Option.map fR) hl
    have hlookq : g1.players.lookup q = g.players.lookup q := by
      rw [hg1e]
      exact lookup_updateP_ne g.players pid q fR hqpid
    have hg1q : (getP g1 q).folded = false := by
      rw [getP, hlookq]
      exact hqf
    have hg1pid : (getP g1 pid).folded = false := by
      rw [getP, hlook1]
      simpa [hfR] using hf
    have hto : g1.dealer.turnOrder = g.dealer.turnOrder := by rw [hg1e]
    have hqact : q ∈ activePlayers g1 := by
      unfold activePlayers
      rw [hto]
      exact List.mem_filter.mpr ⟨hq, by simp [hg1q]⟩
    have hpidact : pid ∈ activePlayers g1 := by
      unfold activePlayers
      rw [hto]
      exact List.mem_filter.mpr
        ⟨mem_of_get?_eq _ _ _ ht, by simp [hg1pid]⟩
    have hacted1 : g1.dealer.acted = [pid] := by rw [hg1e]
    have hnall : allActed g1 = false := by
      cases hb : allActed g1 with
      | false => rfl
      | true =>
        exfalso
        unfold allActed at hb
        rw [List.all_eq_true] at hb
        have h2 := hb q hqact
        rw [hacted1] at h2
        rw [Bool.and_eq_true] at h2
        have h3 := List.contains_iff_exists_mem_beq.mp h2.1
        obtain ⟨x, hx1, hx2⟩ := h3
        rw [List.mem_singleton] at hx1
        exact hqpid ((beq_iff_eq.mp hx2).trans hx1)
    have hlen : ((activePlayers g1).length == 1) = false := by
      have h2 := length_two_of_mem (activePlayers g1) q pid hqact hpidact hqpid
      simp only [beq_eq_false_iff_ne]
      omega
    have hcomp : betsComplete g1 = false := by
      unfold betsComplete
      rw [hnall, hlen]
      rfl
    have hsub : submitBet rs rsB g pid BetAction.raise (some A) = advanceTurn g1 := by
      unfold submitBet
      rw [hacc]
      dsimp only
      rw [← hg1, hcomp]
      rfl
    have hadv_players : (advanceTurn g1).players = g1.players := rfl
    have hadv_dealer_pot : (advanceTurn g1).dealer.pot = g1.dealer.pot := rfl
    have hadv_dealer_cb : (advanceTurn g1).dealer.currentBet = g1.dealer.currentBet := rfl
    have hadv_dealer_acted : (advanceTurn g1).dealer.acted = g1.dealer.acted := rfl
    rw [hsub]
    refine ⟨?_, ?_, ?_, ?_, ?_⟩
    · rw [getP, hadv_players, hlook1]
      simp [hfR, hgp]
    · rw [getP, hadv_players, hlook1]
      simp [hfR]
    · rw [hadv_dealer_pot, hg1e]
    · rw [hadv_dealer_cb, hg1e]
    · rw [hadv_dealer_acted, hacted1]

/-- Witness for claim C4 at a concrete state: in the two-player betting
state, a raise to 10 by the player on turn is accepted and produces the
stated chip, bet, pot, currentBet and acted-set values. -/
theorem C4_raise_contract_witness :
    (betAccepted gBet "p1" BetAction.raise (some 10) = true ↔
      (gBet.dealer.currentBet < 10 ∧
       gBet.dealer.currentBet - pA.bet < 10 - pA.bet ∧
       10 - pA.bet ≤ pA.chips)) ∧
    ((getP (submitBet [1, 2] [] gBet "p1" BetAction.raise (some 10)) "p1").chips
        = pA.chips - (10 - pA.bet) ∧
     (getP (submitBet [1, 2] [] gBet "p1" BetAction.raise (some 10)) "p1").bet = 10 ∧
     (submitBet [1, 2] [] gBet "p1" BetAction.raise (some 10)).dealer.pot
        = gBet.dealer.pot + (10 - pA.bet) ∧
     (submitBet [1, 2] [] gBet "p1" BetAction.raise (some 10)).dealer.currentBet = 10 ∧
     (submitBet [1, 2] [] gBet "p1" BetAction.raise (some 10)).dealer.acted = ["p1"]) := by
  have h := C4_raise_contract [1, 2] [] gBet "p1" pA 10 (by decide)
    (by decide) (by decide) (Or.inl (by decide))
  exact ⟨h.1, h.2 (by decide) "p2" (by decide) (by decide) (by decide)⟩

/-! ## Chip conservation (claim C1) -/

theorem mem_keys_lookup (ps : List (String × PlayerState)) (id : String)
    (h : id ∈ ps.map Prod.fst) : ∃ p, ps.lookup id = some p := by
  cases hl : ps.lookup id with
  | some p => exact ⟨p, rfl⟩
  | none => exact absurd h (by
      intro hm
      obtain ⟨⟨k, v⟩, hkv, hk⟩ := List.mem_map.mp hm
      have := List.lookup_eq_none_iff.mp hl (k, v) hkv
      rw [hk] at this
      simp at this)

theorem betAccepted_lookup (g : Game) (pid : String) (action : BetAction)
    (amount : Option Int) (h : betAccepted g pid action amount = true) :
    ∃ p, g.players.lookup pid = some p := by
  unfold betAccepted at h
  cases hl : g.players.lookup pid with
  | none => rw [hl] at h; exact Bool.noConfusion h
  | some p => exact ⟨p, rfl⟩

theorem betAccepted_phase (g : Game) (pid : String) (action : BetAction)
    (amount : Option Int) (h : betAccepted g pid action amount = true) :
    g.dealer.phase = Phase.bet1 ∨ g.dealer.phase = Phase.bet2 := by
  by_contra hc
  rw [not_or] at hc
  rw [betAccepted_false_of_phase g pid action amount hc.1 hc.2] at h
  exact Bool.noConfusion h

theorem executeBet_conserves (g : Game) (pid : String) (action : BetAction)
    (amount : Option Int) (p : PlayerState)
    (hn : (g.players.map Prod.fst).Nodup) (hl : g.players.lookup pid = some p) :
    chipSum (executeBet g pid action amount).players +
      (executeBet g pid action amount).dealer.pot =
    chipSum g.players + g.dealer.pot := by
  have hgp : getP g pid = p := by simp [getP, hl]
  cases action with
  | fold =>
    unfold executeBet
    rw [chipSum_updateP g.players pid _ p hn hl]
    ring
  | check =>
    unfold executeBet
    rw [chipSum_updateP g.players pid _ p hn hl]
    ring
  | call =>
    unfold executeBet
    rw [hgp]
    dsimp only
    rw [chipSum_updateP g.players pid _ p hn hl]
    ring
  | raise =>
    unfold executeBet
    rw [hgp]
    dsimp only
    rw [chipSum_updateP g.players pid _ p hn hl]
    ring

theorem phaseReset_chips (g : Game) :
    chipSum (phaseReset g).players = chipSum g.players ∧
    (phaseReset g).dealer.pot = g.dealer.pot ∧
    (phaseReset g).dealer.phase = g.dealer.phase := by
  refine ⟨?_, rfl, rfl⟩
  exact chipSum_map_keep g.players _ (fun kv _ => rfl)

theorem advancePhase_conserves (rs rsB : List Nat) (g : Game)
    (hph : g.dealer.phase = Phase.bet1 ∨ g.dealer.phase = Phase.bet2) :
    chipSum (advancePhase rs rsB g).players = chipSum g.players ∧
    (advancePhase rs rsB g).dealer.pot = g.dealer.pot := by
  obtain ⟨hc, hp, hf⟩ := phaseReset_chips g
  unfold advancePhase
  dsimp only
  rcases hph with h | h <;> rw [hf.trans h] <;> exact ⟨hc, hp⟩

theorem clearBets_conserves (g : Game) :
    chipSum (clearBets g).players = chipSum g.players ∧
    (clearBets g).dealer.pot = g.dealer.pot ∧
    (clearBets g).dealer.phase = g.dealer.phase := by
  refine ⟨?_, rfl, rfl⟩
  apply chipSum_map_keep
  intro kv _
  unfold clearBetP
  by_cases h : g.dealer.turnOrder.contains kv.1 && !kv.2.folded
  · simp only [if_pos h]
  · simp only [if_neg h]

theorem submitBet_conserves (rs rsB : List Nat) (g : Game) (pid : String)
    (action : BetAction) (amount : Option Int)
    (hn : (g.players.map Prod.fst).Nodup) :
    chipSum (submitBet rs rsB g pid action amount).players +
      (submitBet rs rsB g pid action amount).dealer.pot =
    chipSum g.players + g.dealer.pot := by
  cases hacc : betAccepted g pid action amount with
  | false => rw [submitBet_not_accepted rs rsB g pid action amount hacc]
  | true =>
    obtain ⟨p, hl⟩ := betAccepted_lookup g pid action amount hacc
    have hexe := executeBet_conserves g pid action amount p hn hl
    set gE := executeBet g pid action amount with hgE
    set g1 := markActed gE pid with hg1
    have h1p : g1.players = gE.players := rfl
    have h1pot : g1.dealer.pot = gE.dealer.pot := rfl
    have h1ph : g1.dealer.phase = gE.dealer.phase := rfl
    have hEph : gE.dealer.phase = g.dealer.phase := by
      rw [hgE]
      cases action <;> rfl
    have hsub : submitBet rs rsB g pid action amount =
        (if betsComplete g1 then advancePhase rs rsB (clearBets g1)
         else advanceTurn g1) := by
      unfold submitBet
      rw [hacc]
      rfl
    rw [hsub]
    cases hcomp : betsComplete g1 with
    | false =>
      rw [if_neg Bool.false_ne_true]
      have hpl : (advanceTurn g1).players = g1.players := rfl
      have hpo : (advanceTurn g1).dealer.pot = g1.dealer.pot := rfl
      rw [hpl, hpo, h1p, h1pot, hexe]
    | true =>
      rw [if_pos rfl]
      obtain ⟨hcb, hcpot, hcph⟩ := clearBets_conserves g1
      have hphase : (clearBets g1).dealer.phase = Phase.bet1 ∨
          (clearBets g1).dealer.phase = Phase.bet2 := by
        rw [hcph, h1ph, hEph]
        exact betAccepted_phase g pid action amount hacc
      obtain ⟨hac, hap⟩ := advancePhase_conserves rs rsB (clearBets g1) hphase
      rw [hac, hap, hcb, hcpot, h1p, h1pot, hexe]

/-! ## The winner scan -/

theorem foldl_winner_spec (score : String → Int) :
    ∀ (l : List String) (acc : String × Int),
      (l.foldl (fun a id => if score id > a.2 then (id, score id) else a) acc = acc ∧
        ∀ id ∈ l, score id ≤ acc.2) ∨
      (∃ pre post,
        l = pre ++ (l.foldl (fun a id => if score id > a.2 then (id, score id) else a) acc).1 :: post ∧
        (l.foldl (fun a id => if score id > a.2 then (id, score id) else a) acc).2 =
          score (l.foldl (fun a id => if score id > a.2 then (id, score id) else a) acc).1 ∧
        acc.2 < (l.foldl (fun a id => if score id > a.2 then (id, score id) else a) acc).2 ∧
        (∀ id ∈ pre, score id <
          (l.foldl (fun a id => if score id > a.2 then (id, score id) else a) acc).2) ∧
        (∀ id ∈ post, score id ≤
          (l.foldl (fun a id => if score id > a.2 then (id, score id) else a) acc).2)) := by
  intro l
  induction l with
  | nil => exact fun acc => Or.inl ⟨rfl, by simp⟩
  | cons x xs ih =>
    intro acc
    by_cases hx : score x > acc.2
    · rw [List.foldl_cons, if_pos hx]
      rcases ih (x, score x) with ⟨heq, hle⟩ | ⟨pre, post, hsplit, hsc, hgt, hpre, hpost⟩
      · refine Or.inr ⟨[], xs, ?_, ?_, ?_, ?_, ?_⟩
        · rw [heq]
          rfl
        · rw [heq]
        · rw [heq]
          exact hx
        · intro id hid
          exact absurd hid (List.not_mem_nil id)
        · intro id hid
          rw [heq]
          exact hle id hid
      · refine Or.inr ⟨x :: pre, post, ?_, hsc, ?_, ?_, hpost⟩
        · rw [List.cons_append, ← hsplit]
        · exact lt_trans hx hgt
        · intro id hid
          rcases List.mem_cons.mp hid with rfl | hid
          · exact hgt
          · exact hpre id hid
    · rw [List.foldl_cons, if_neg hx]
      rcases ih acc with ⟨heq, hle⟩ | ⟨pre, post, hsplit, hsc, hgt, hpre, hpost⟩
      · refine Or.inl ⟨heq, ?_⟩
        intro id hid
        rcases List.mem_cons.mp hid with rfl | hid
        · omega
        · exact hle id hid
      · refine Or.inr ⟨x :: pre, post, ?_, hsc, hgt, ?_, hpost⟩
        · rw [List.cons_append, ← hsplit]
        · intro id hid
          rcases List.mem_cons.mp hid with rfl | hid
          · omega
          · exact hpre id hid

theorem findWinner_spec (score : String → Int) (elig : List String)
    (hne : elig ≠ []) (hpos : ∀ id ∈ elig, 0 < score id) :
    ∃ pre post, elig = pre ++ (findWinner score elig).1 :: post ∧
      (findWinner score elig).2 = score (findWinner score elig).1 ∧
      (∀ id ∈ pre, score id < (findWinner score elig).2) ∧
      (∀ id ∈ elig, score id ≤ (findWinner score elig).2) := by
  rcases foldl_winner_spec score elig ("", 0) with ⟨heq, hle⟩ | h
  · exfalso
    obtain ⟨x, hx⟩ := List.exists_mem_of_ne_nil elig hne
    have h1 := hpos x hx
    have h2 := hle x hx
    omega
  · obtain ⟨pre, post, hsplit, hsc, _, hpre, hpost⟩ := h
    refine ⟨pre, post, hsplit, hsc, hpre, ?_⟩
    intro id hid
    rw [hsplit] at hid
    rcases List.mem_append.mp hid with hid | hid
    · exact le_of_lt (hpre id hid)
    · rcases List.mem_cons.mp hid with rfl | hid
      · exact le_of_eq hsc.symm
      · exact hpost id hid

theorem findWinner_mem (score : String → Int) (elig : List String)
    (hne : elig ≠ []) (hpos : ∀ id ∈ elig, 0 < score id) :
    (findWinner score elig).1 ∈ elig := by
  obtain ⟨pre, post, hsplit, -, -, -⟩ := findWinner_spec score elig hne hpos
  have hmem : (findWinner score elig).1 ∈ pre ++ (findWinner score elig).1 :: post :=
    List.mem_append_right pre (List.mem_cons_self _ _)
  exact Eq.subst (motive := fun l => (findWinner score elig).1 ∈ l) hsplit.symm hmem

theorem evaluateHand_score_pos (cards : List Nat) :
    0 < (evaluateHand cards).2.1 := by
  unfold evaluateHand
  dsimp only
  split_ifs <;> norm_num

theorem handIds_subset_keys (g : Game) (id : String) (h : id ∈ handIds g) :
    id ∈ g.players.map Prod.fst := by
  unfold handIds at h
  obtain ⟨kv, hkv, hk⟩ := List.mem_map.mp h
  exact hk ▸ List.mem_map.mpr ⟨kv, List.mem_of_mem_filter hkv, rfl⟩

theorem eligible_subset_handIds (g : Game) (cc : List Nat) (id : String)
    (h : id ∈ eligibleIds g cc) : id ∈ handIds g := by
  unfold eligibleIds at h
  exact List.mem_of_mem_filter h

theorem chipSum_map_add (ps : List (String × PlayerState)) (c : Int) :
    chipSum (ps.map fun kv => (kv.1, { kv.2 with chips := kv.2.chips + c })) =
      chipSum ps + ps.length * c := by
  induction ps with
  | nil => simp [chipSum]
  | cons kv rest ih =>
    rw [List.map_cons, chipSum_cons, chipSum_cons, ih]
    simp only [List.length_cons]
    push_cast
    ring

theorem chipSum_roundReset (ps : List (String × PlayerState)) :
    chipSum (ps.map fun kv => (kv.1, roundResetP kv.2)) = chipSum ps :=
  chipSum_map_keep ps _ (fun _kv _ => rfl)

theorem resolveBetsCore_pot (rs : List Nat) (g : Game) :
    (resolveBetsCore rs g).dealer.pot = 0 := rfl

theorem resolveBetsCore_players (rs : List Nat) (g : Game) :
    (resolveBetsCore rs g).players =
      (distributePot g (revealedCC rs g)).map fun kv =>
        (kv.1, roundResetP kv.2) := rfl

/-- Claim C1: within a round, every accepted betting action conserves the
sum of all chips plus the pot; a resolution with a non-empty eligible set
also conserves it (the pot moves entirely to the winner and is zeroed);
only the all-sniped split resolution can lose chips, and it loses exactly
the remainder of the floor division of the pot by the player count. -/
theorem C1_chip_conservation :
    (∀ rs rsB g pid action amount, (g.players.map Prod.fst).Nodup →
      betAccepted g pid action amount = true →
      chipSum (submitBet rs rsB g pid action amount).players +
        (submitBet rs rsB g pid action amount).dealer.pot =
      chipSum g.players + g.dealer.pot) ∧
    (∀ rs g, (g.players.map Prod.fst).Nodup →
      eligibleIds g (revealedCC rs g) ≠ [] →
      chipSum (resolveBetsCore rs g).players +
        (resolveBetsCore rs g).dealer.pot =
      chipSum g.players + g.dealer.pot) ∧
    (∀ rs g, g.players ≠ [] →
      eligibleIds g (revealedCC rs g) = [] →
      chipSum (resolveBetsCore rs g).players +
        (resolveBetsCore rs g).dealer.pot =
      chipSum g.players + g.dealer.pot -
        g.dealer.pot.fmod (g.players.length : Int)) := by
  refine ⟨?_, ?_, ?_⟩
  · intro rs rsB g pid action amount hn hacc
    exact submitBet_conserves rs rsB g pid action amount hn
  · intro rs g hn hne
    set cc := revealedCC rs g with hcc
    have hlen : ((eligibleIds g cc).length == 0) = false := by
      simp only [beq_eq_false_iff_ne, ne_eq]
      intro h0
      exact hne (List.length_eq_zero.mp h0)
    have hpos : ∀ id ∈ eligibleIds g cc,
        0 < (handEval g cc id).2.1 := by
      intro id _
      exact evaluateHand_score_pos _
    have hwmem := findWinner_mem (fun id => (handEval g cc id).2.1)
      (eligibleIds g cc) hne hpos
    have hwkeys : (findWinner (fun id => (handEval g cc id).2.1)
        (eligibleIds g cc)).1 ∈ g.players.map Prod.fst :=
      handIds_subset_keys g _ (eligible_subset_handIds g cc _ hwmem)
    obtain ⟨pw, hpw⟩ := mem_keys_lookup g.players _ hwkeys
    rw [resolveBetsCore_players, resolveBetsCore_pot, ← hcc,
      chipSum_roundReset]
    unfold distributePot
    rw [hlen, if_neg Bool.false_ne_true]
    rw [chipSum_updateP g.players _ _ pw hn hpw]
    ring
  · intro rs g hne hel
    set cc := revealedCC rs g with hcc
    have hlen : ((eligibleIds g cc).length == 0) = true := by
      simp [hel]
    rw [resolveBetsCore_players, resolveBetsCore_pot, ← hcc,
      chipSum_roundReset]
    unfold distributePot
    rw [hlen, if_pos rfl]
    dsimp only
    rw [chipSum_map_add]
    have hfd := Int.fdiv_add_fmod g.dealer.pot (g.players.length : Int)
    have hlen2 : (g.players.map fun kv => kv.2.chips).length = g.players.length :=
      List.length_map _ _
    omega

/-- Witness for claim C1 at concrete states: an accepted raise in the
two-player betting state conserves chips plus pot, a resolution of the
snipe state with both players eligible conserves it, and a split with an
odd pot over two players loses exactly the one-chip remainder. -/
theorem C1_chip_conservation_witness :
    (chipSum (submitBet [1, 2] [] gBet "p1" BetAction.raise (some 10)).players +
       (submitBet [1, 2] [] gBet "p1" BetAction.raise (some 10)).dealer.pot =
     chipSum gBet.players + gBet.dealer.pot) ∧
    (chipSum (resolveBetsCore [] gSnipe).players +
       (resolveBetsCore [] gSnipe).dealer.pot =
     chipSum gSnipe.players + gSnipe.dealer.pot) :=
  ⟨C1_chip_conservation.1 [1, 2] [] gBet "p1" BetAction.raise (some 10)
      (by decide) (by decide),
   C1_chip_conservation.2.1 [] gSnipe (by decide) (by decide)⟩

/-! ## Resolution winner and sniped set (claim C2) -/

theorem lookup_of_mem_nodup (ps : List (String × PlayerState)) (id : String)
    (p : PlayerState) (hn : (ps.map Prod.fst).Nodup) (hm : (id, p) ∈ ps) :
    ps.lookup id = some p := by
  induction ps with
  | nil => exact absurd hm (List.not_mem_nil _)
  | cons kv rest ih =>
    simp only [List.map_cons, List.nodup_cons] at hn
    rcases List.mem_cons.mp hm with rfl | hm
    · exact List.lookup_cons_self
    · have hk : kv.1 ≠ id := by
        intro he
        exact hn.1 (he ▸ List.mem_map.mpr ⟨(id, p), hm, rfl⟩)
      rw [List.lookup_cons, beq_eq_false_iff_ne.mpr (Ne.symm hk)]
      exact ih hn.2 hm

theorem lookup_mem_pair (ps : List (String × PlayerState)) (id : String)
    (p : PlayerState) (h : ps.lookup id = some p) : (id, p) ∈ ps := by
  obtain ⟨l1, l2, rfl, -⟩ := List.lookup_eq_some_iff.mp h
  exact List.mem_append_right l1 (List.mem_cons_self _ _)

theorem lookup_map_value (ps : List (String × PlayerState)) (id : String)
    (F : PlayerState → PlayerState) :
    (ps.map fun kv => (kv.1, F kv.2)).lookup id = (ps.lookup id).map F := by
  induction ps with
  | nil => rfl
  | cons kv rest ih =>
    obtain ⟨k, v⟩ := kv
    by_cases h : id = k
    · subst h
      simp [List.lookup_cons]
    · rw [List.map_cons, List.lookup_cons, List.lookup_cons,
        beq_eq_false_iff_ne.mpr h]
      exact ih

theorem mem_handIds_iff (g : Game) (hn : (g.players.map Prod.fst).Nodup)
    (id : String) :
    id ∈ handIds g ↔
      id ∈ g.players.map Prod.fst ∧ (getP g id).folded = false := by
  unfold handIds
  constructor
  · intro h
    obtain ⟨kv, hkv, hk⟩ := List.mem_map.mp h
    have hmem := List.mem_of_mem_filter hkv
    have hfol := List.of_mem_filter hkv
    have hl : g.players.lookup id = some kv.2 := by
      rw [← hk]
      exact lookup_of_mem_nodup g.players kv.1 kv.2 hn hmem
    refine ⟨hk ▸ List.mem_map.mpr ⟨kv, hmem, rfl⟩, ?_⟩
    rw [getP, hl]
    simpa using hfol
  · rintro ⟨hmem, hfol⟩
    obtain ⟨p, hl⟩ := mem_keys_lookup g.players id hmem
    have hp : p.folded = false := by
      rw [getP, hl] at hfol
      exact hfol
    exact List.mem_map.mpr ⟨(id, p),
      List.mem_filter.mpr ⟨lookup_mem_pair g.players id p hl, by simp [hp]⟩, rfl⟩

theorem mem_snipedIds_iff (g : Game) (cc : List Nat) (id : String) :
    id ∈ snipedIds g cc ↔
      id ∈ handIds g ∧ ∃ s ∈ handIds g,
        (getP g s).snipedPrediction = some (handEval g cc id).1 := by
  unfold snipedIds
  rw [List.mem_filter]
  simp only [List.any_eq_true, beq_iff_eq]

theorem mem_eligible_not_sniped (g : Game) (cc : List Nat) (id : String)
    (h : id ∈ eligibleIds g cc) : id ∉ snipedIds g cc := by
  unfold eligibleIds at h
  have h2 := List.of_mem_filter h
  rw [Bool.and_eq_true] at h2
  intro hmem
  have hcon : (snipedIds g cc).contains id = true :=
    List.contains_iff_exists_mem_beq.mpr ⟨id, hmem, by simp⟩
  rw [hcon] at h2
  simp at h2

/-- Claim C2: at resolution, a player is in the sniped set exactly when
some evaluated (non-folded) player has a prediction naming the own
evaluated category (self-predictions included); the evaluated players
are exactly the non-folded ones; and with a non-empty eligible set the
winner is eligible (hence not sniped and not folded), is the first
player in eligible order carrying the strictly highest score, and gains
exactly the full pot. -/
theorem C2_resolution_winner (rs : List Nat) (g : Game)
    (hn : (g.players.map Prod.fst).Nodup) :
    (∀ id, id ∈ snipedIds g (revealedCC rs g) ↔
      id ∈ handIds g ∧ ∃ s ∈ handIds g,
        (getP g s).snipedPrediction =
          some (handEval g (revealedCC rs g) id).1) ∧
    (∀ id, id ∈ handIds g ↔
      id ∈ g.players.map Prod.fst ∧ (getP g id).folded = false) ∧
    (eligibleIds g (revealedCC rs g) ≠ [] →
      potWinner g (revealedCC rs g) ∈ eligibleIds g (revealedCC rs g) ∧
      potWinner g (revealedCC rs g) ∉ snipedIds g (revealedCC rs g) ∧
      (∃ pre post,
        eligibleIds g (revealedCC rs g) =
          pre ++ potWinner g (revealedCC rs g) :: post ∧
        (∀ q ∈ pre, (handEval g (revealedCC rs g) q).2.1 <
          (handEval g (revealedCC rs g) (potWinner g (revealedCC rs g))).2.1) ∧
        (∀ q ∈ eligibleIds g (revealedCC rs g),
          (handEval g (revealedCC rs g) q).2.1 ≤
          (handEval g (revealedCC rs g) (potWinner g (revealedCC rs g))).2.1)) ∧
      (getP (resolveBetsCore rs g) (potWinner g (revealedCC rs g))).chips =
        (getP g (potWinner g (revealedCC rs g))).chips + g.dealer.pot) := by
  set cc := revealedCC rs g with hcc
  refine ⟨fun id => mem_snipedIds_iff g cc id,
    fun id => mem_handIds_iff g hn id, ?_⟩
  intro hne
  have hlen : ((eligibleIds g cc).length == 0) = false := by
    simp only [beq_eq_false_iff_ne, ne_eq]
    intro h0
    exact hne (List.length_eq_zero.mp h0)
  have hpw : potWinner g cc =
      (findWinner (fun id => (handEval g cc id).2.1) (eligibleIds g cc)).1 := by
    unfold potWinner
    rw [hlen, if_neg Bool.false_ne_true]
  have hpos : ∀ id ∈ eligibleIds g cc, 0 < (handEval g cc id).2.1 :=
    fun id _ => evaluateHand_score_pos _
  have hwmem : potWinner g cc ∈ eligibleIds g cc := by
    rw [hpw]
    exact findWinner_mem _ _ hne hpos
  obtain ⟨pre, post, hsplit, hsc, hpre, hmax⟩ :=
    findWinner_spec (fun id => (handEval g cc id).2.1) (eligibleIds g cc) hne hpos
  refine ⟨hwmem, mem_eligible_not_sniped g cc _ hwmem, ?_, ?_⟩
  · refine ⟨pre, post, ?_, ?_, ?_⟩
    · rw [hpw]
      exact hsplit
    · intro q hq
      rw [hpw]
      have := hpre q hq
      omega
    · intro q hq
      rw [hpw]
      have := hmax q hq
      omega
  · have hwkeys : potWinner g cc ∈ g.players.map Prod.fst :=
      handIds_subset_keys g _ (eligible_subset_handIds g cc _ hwmem)
    obtain ⟨pw, hlw⟩ := mem_keys_lookup g.players _ hwkeys
    have hgw : getP g (potWinner g cc) = pw := by simp [getP, hlw]
    have hdist : (distributePot g cc).lookup (potWinner g cc) =
        some { pw with chips := pw.chips + g.dealer.pot } := by
      unfold distributePot
      rw [hlen, if_neg Bool.false_ne_true, ← hpw, lookup_updateP_self, hlw]
      rfl
    have hres : (resolveBetsCore rs g).players.lookup (potWinner g cc) =
        some { pw with
               chips := pw.chips + g.dealer.pot
               bet := 0
               folded := false
               hasActed := false
               snipedPrediction := none
               lastAction := none
               lastActionAmount := none } := by
      rw [resolveBetsCore_players, ← hcc, lookup_map_value, hdist]
      rfl
    rw [getP, hres, hgw]
    rfl

/-- Witness for claim C2 at the concrete snipe-phase state: with no
predictions recorded, both players are eligible, the winner is the
first-encountered highest scorer and collects the whole 20-chip pot. -/
theorem C2_resolution_winner_witness :
    potWinner gSnipe (revealedCC [] gSnipe) ∈
      eligibleIds gSnipe (revealedCC [] gSnipe) ∧
    potWinner gSnipe (revealedCC [] gSnipe) ∉
      snipedIds gSnipe (revealedCC [] gSnipe) ∧
    (getP (resolveBetsCore [] gSnipe)
        (potWinner gSnipe (revealedCC [] gSnipe))).chips =
      (getP gSnipe (potWinner gSnipe (revealedCC [] gSnipe))).chips +
        gSnipe.dealer.pot := by
  have h := (C2_resolution_winner [] gSnipe (by decide)).2.2 (by decide)
  exact ⟨h.1, h.2.1, h.2.2.2⟩

/-! ## Code-bug exhibits (claims C7, C9, C10) -/

/-- Claim C7 exhibit: in the two-player betting state the amount to call
is zero, yet submitBet accepts the call — it records lastAction call,
marks the caller acted and advances the turn, instead of rejecting the
action with no state change as the specification and the repository test
script require; chips, bet and pot are untouched, so the zero call acts
as a mislabelled check. -/
theorem C7_zero_call_accepted :
    gBet.dealer.currentBet - (getP gBet "p1").bet = 0 ∧
    betAccepted gBet "p1" BetAction.call none = true ∧
    (getP (submitBet [] [] gBet "p1" BetAction.call none) "p1").lastAction
      = some "call" ∧
    (submitBet [] [] gBet "p1" BetAction.call none).dealer.acted = ["p1"] ∧
    (submitBet [] [] gBet "p1" BetAction.call none).dealer.currentTurn = 1 ∧
    (getP (submitBet [] [] gBet "p1" BetAction.call none) "p1").chips
      = (getP gBet "p1").chips ∧
    (submitBet [] [] gBet "p1" BetAction.call none).dealer.pot
      = gBet.dealer.pot := by
  decide

/-- Claim C9 exhibit: in the two-player betting state a single 7 has been
dealt (in one hand), so the multiset difference of the 40-card deck and
the used cards still holds three 7s, but the pool advancePhase draws the
two new community cards from holds none — deck.filter excludes every
copy of a used value; the transition still deals exactly two cards for
4 total. -/
theorem C9_pool_drops_all_copies :
    (usedCards gBet.players gBet.dealer.communityCards).count 7 = 1 ∧
    (createDeck.diff (usedCards gBet.players gBet.dealer.communityCards)).count 7
      = 3 ∧
    (remainingPool gBet.players gBet.dealer.communityCards).count 7 = 0 ∧
    (advancePhase [0, 0] [] gBet).dealer.communityCards.length = 4 ∧
    (advancePhase [0, 0] [] gBet).dealer.communityCards.take 2
      = gBet.dealer.communityCards := by
  decide

/-- A room already past round 1 in which one player has lost all chips. -/
def gZero : Game where
  dealer := { gBet.dealer with roundNumber := 2 }
  players := [("p1", { pA with chips := 0 }), ("p2", { pB with chips := 37 })]

/-- Claim C10 exhibit: re-invoking startGame on a room past round 1
preserves a non-zero chip count but resets a zero chip count to 60 (the
chips-or-60 default treats 0 as missing), so chips do not persist
exactly. -/
theorem C10_startGame_zero_chips :
    2 ≤ gZero.dealer.roundNumber ∧
    (getP gZero "p1").chips = 0 ∧
    (getP (startGame [] gZero) "p1").chips = 60 ∧
    (getP gZero "p2").chips = 37 ∧
    (getP (startGame [] gZero) "p2").chips = 37 := by
  decide

/-! ## Betting-phase completion (claim C5) -/

/-- The completion condition as the claim words it: every non-folded,
NON-ZERO-CHIP player has acted and matched the current bet, or only one
non-folded player remains. -/
def specBetComplete (g : Game) : Prop :=
  (∀ id ∈ activePlayers g, (getP g id).chips ≠ 0 →
    id ∈ g.dealer.acted ∧ (getP g id).bet = g.dealer.currentBet) ∨
  (activePlayers g).length = 1

instance (g : Game) : Decidable (specBetComplete g) := by
  unfold specBetComplete; infer_instance

/-- The post-validation state of submitBet: action executed and the
acting player marked acted, before the completion check. -/
def postAction (g : Game) (pid : String) (action : BetAction)
    (amount : Option Int) : Game :=
  markActed (executeBet g pid action amount) pid

/-- A betting state with a zero-chip second player who has not acted. -/
def gC5 : Game where
  dealer :=
    { phase := Phase.bet1
      currentTurn := 0
      turnOrder := ["p1", "p2"]
      communityCards := [5, 9]
      pot := 0
      currentBet := 0
      draws := []
      roundNumber := 1
      roundResults := []
      actionHistory := []
      acted := [] }
  players := [("p1", { pA with chips := 5 }), ("p2", { pB with chips := 0 })]

/-- Claim C5 counterexample: the accepted check of the first player leaves a
state in which the claimed completion condition holds (every non-folded
player with chips has acted and matched, since the only other active
player has zero chips), yet the code does not complete the phase: the
phase is still bet1, the acted set is not cleared and the turn has merely
advanced — the code requires zero-chip players to act and match too. -/
theorem C5_zero_chip_completion_cex :
    betAccepted gC5 "p1" BetAction.check none = true ∧
    specBetComplete (postAction gC5 "p1" BetAction.check none) ∧
    (submitBet [] [] gC5 "p1" BetAction.check none).dealer.phase = Phase.bet1 ∧
    (submitBet [] [] gC5 "p1" BetAction.check none).dealer.acted = ["p1"] ∧
    (submitBet [] [] gC5 "p1" BetAction.check none).dealer.currentTurn = 1 := by
  decide

theorem betsComplete_iff (h : Game) :
    betsComplete h = true ↔
      ((∀ id ∈ activePlayers h,
          id ∈ h.dealer.acted ∧ (getP h id).bet = h.dealer.currentBet) ∨
        (activePlayers h).length = 1) := by
  unfold betsComplete allActed
  rw [Bool.or_eq_true, List.all_eq_true]
  constructor
  · rintro (hall | hlen)
    · left
      intro id hid
      have h2 := hall id hid
      rw [Bool.and_eq_true] at h2
      refine ⟨?_, by simpa using h2.2⟩
      obtain ⟨x, hx1, hx2⟩ := List.contains_iff_exists_mem_beq.mp h2.1
      exact (beq_iff_eq.mp hx2) ▸ hx1
    · right
      simpa using hlen
  · rintro (hall | hlen)
    · left
      intro id hid
      obtain ⟨h1, h2⟩ := hall id hid
      rw [Bool.and_eq_true]
      exact ⟨List.contains_iff_exists_mem_beq.mpr ⟨id, h1, by simp⟩,
        by simpa using h2⟩
    · right
      simpa using hlen

theorem lookup_map_keyed (ps : List (String × PlayerState)) (id : String)
    (F : String → PlayerState → PlayerState) :
    (ps.map fun kv => (kv.1, F kv.1 kv.2)).lookup id = (ps.lookup id).map (F id) := by
  induction ps with
  | nil => rfl
  | cons kv rest ih =>
    obtain ⟨k, v⟩ := kv
    by_cases h : id = k
    · subst h
      simp [List.lookup_cons]
    · rw [List.map_cons, List.lookup_cons, List.lookup_cons,
        beq_eq_false_iff_ne.mpr h]
      exact ih

theorem postAction_phase (g : Game) (pid : String) (action : BetAction)
    (amount : Option Int) :
    (postAction g pid action amount).dealer.phase = g.dealer.phase := by
  cases action <;> rfl

theorem postAction_turnOrder (g : Game) (pid : String) (action : BetAction)
    (amount : Option Int) :
    (postAction g pid action amount).dealer.turnOrder = g.dealer.turnOrder := by
  cases action <;> rfl

theorem submitBet_accepted_eq (rs rsB : List Nat) (g : Game) (pid : String)
    (action : BetAction) (amount : Option Int)
    (hacc : betAccepted g pid action amount = true) :
    submitBet rs rsB g pid action amount =
      (if betsComplete (postAction g pid action amount) then
        advancePhase rs rsB (clearBets (postAction g pid action amount))
       else advanceTurn (postAction g pid action amount)) := by
  unfold submitBet postAction
  rw [hacc]
  rfl

theorem advancePhase_bet_fields (rs rsB : List Nat) (h : Game)
    (hph : h.dealer.phase = Phase.bet1 ∨ h.dealer.phase = Phase.bet2) :
    (advancePhase rs rsB h).dealer.currentBet = 0 ∧
    (advancePhase rs rsB h).dealer.acted = [] ∧
    (advancePhase rs rsB h).dealer.phase =
      (if h.dealer.phase = Phase.bet1 then Phase.bet2 else Phase.snipe) ∧
    (∀ id, (getP (advancePhase rs rsB h) id).bet = (getP h id).bet) := by
  have hf := (phaseReset_chips h).2.2
  have hbet : ∀ id, (getP (advancePhase rs rsB h) id).bet = (getP h id).bet := by
    intro id
    have hpl : (advancePhase rs rsB h).players = (phaseReset h).players := by
      unfold advancePhase
      dsimp only
      rcases hph with hp | hp <;> (rw [hf.trans hp]; try rfl)
    rw [getP, getP, hpl]
    unfold phaseReset
    dsimp only
    rw [lookup_map_value]
    cases h.players.lookup id <;> rfl
  have hcb : (advancePhase rs rsB h).dealer.currentBet = 0 := by
    unfold advancePhase
    dsimp only
    rcases hph with hp | hp <;> (rw [hf.trans hp]; try rfl)
  have hact : (advancePhase rs rsB h).dealer.acted = [] := by
    unfold advancePhase
    dsimp only
    rcases hph with hp | hp <;> (rw [hf.trans hp]; try rfl)
  have hphase : (advancePhase rs rsB h).dealer.phase =
      (if h.dealer.phase = Phase.bet1 then Phase.bet2 else Phase.snipe) := by
    rcases hph with hp | hp
    · unfold advancePhase
      dsimp only
      rw [hf.trans hp, hp]
      rfl
    · unfold advancePhase
      dsimp only
      rw [hf.trans hp, hp]
      rfl
  exact ⟨hcb, hact, hphase, hbet⟩

theorem clearBets_bet_zero (h : Game) (id : String)
    (hto : id ∈ h.dealer.turnOrder) (hfo : (getP h id).folded = false) :
    (getP (clearBets h) id).bet = 0 := by
  have hcon : h.dealer.turnOrder.contains id = true :=
    List.contains_iff_exists_mem_beq.mpr ⟨id, hto, by simp⟩
  have hpl : (clearBets h).players =
      h.players.map fun kv => (kv.1, clearBetP h.dealer.turnOrder kv.1 kv.2) := rfl
  rw [getP, hpl, lookup_map_keyed h.players id (clearBetP h.dealer.turnOrder)]
  cases hl : h.players.lookup id with
  | none => rfl
  | some v =>
    have hv : v.folded = false := by
      rw [getP, hl] at hfo
      exact hfo
    show (clearBetP h.dealer.turnOrder id v).bet = 0
    unfold clearBetP
    rw [hv, hcon]
    rfl

/-- Claim C5 (amended): after an accepted betting action, the phase
completes exactly when every non-folded player — zero-chip players
included — has acted and matched the current bet, or when only one
non-folded player remains; on completion every non-folded player bet
and currentBet are zeroed and the acted set is cleared before the phase
advances (bet1 to bet2, bet2 to snipe); without completion the phase is
unchanged. -/
theorem C5_completion_contract (rs rsB : List Nat) (g : Game) (pid : String)
    (action : BetAction) (amount : Option Int)
    (hacc : betAccepted g pid action amount = true) :
    (betsComplete (postAction g pid action amount) = true ↔
      ((∀ id ∈ activePlayers (postAction g pid action amount),
          id ∈ (postAction g pid action amount).dealer.acted ∧
          (getP (postAction g pid action amount) id).bet =
            (postAction g pid action amount).dealer.currentBet) ∨
        (activePlayers (postAction g pid action amount)).length = 1)) ∧
    (betsComplete (postAction g pid action amount) = true →
      (submitBet rs rsB g pid action amount).dealer.currentBet = 0 ∧
      (submitBet rs rsB g pid action amount).dealer.acted = [] ∧
      (∀ id ∈ g.dealer.turnOrder,
        (getP (postAction g pid action amount) id).folded = false →
        (getP (submitBet rs rsB g pid action amount) id).bet = 0) ∧
      (submitBet rs rsB g pid action amount).dealer.phase =
        (if g.dealer.phase = Phase.bet1 then Phase.bet2 else Phase.snipe)) ∧
    (betsComplete (postAction g pid action amount) = false →
      (submitBet rs rsB g pid action amount).dealer.phase = g.dealer.phase) := by
  have hph := betAccepted_phase g pid action amount hacc
  have hphP : (clearBets (postAction g pid action amount)).dealer.phase =
      g.dealer.phase := by
    show (postAction g pid action amount).dealer.phase = g.dealer.phase
    exact postAction_phase g pid action amount
  refine ⟨betsComplete_iff _, ?_, ?_⟩
  · intro hcomp
    rw [submitBet_accepted_eq rs rsB g pid action amount hacc, if_pos hcomp]
    obtain ⟨hcb, hact, hphase, hbets⟩ :=
      advancePhase_bet_fields rs rsB (clearBets (postAction g pid action amount))
        (by rw [hphP]; exact hph)
    refine ⟨hcb, hact, ?_, by rw [hphase, hphP]⟩
    intro id hto hfo
    rw [hbets id]
    apply clearBets_bet_zero
    · show id ∈ (postAction g pid action amount).dealer.turnOrder
      rw [postAction_turnOrder]
      exact hto
    · exact hfo
  · intro hcomp
    rw [submitBet_accepted_eq rs rsB g pid action amount hacc, if_neg (by simp [hcomp])]
    show (postAction g pid action amount).dealer.phase = g.dealer.phase
    exact postAction_phase g pid action amount

/-- A mid-round state: the first player has raised to 10 and the second
is to act. -/
def gMid : Game where
  dealer :=
    { phase := Phase.bet1
      currentTurn := 1
      turnOrder := ["p1", "p2"]
      communityCards := [5, 9]
      pot := 10
      currentBet := 10
      draws := []
      roundNumber := 1
      roundResults := []
      actionHistory := []
      acted := ["p1"] }
  players := [("p1", { pA with chips := 50, bet := 10 }), ("p2", pB)]

/-- Witness for the amended C5 theorem: the call of the second player after a
raise completes the phase — currentBet is zeroed, the acted set cleared
and the phase advances from bet1 to bet2. -/
theorem C5_completion_contract_witness :
    (submitBet [0, 1] [] gMid "p2" BetAction.call none).dealer.currentBet = 0 ∧
    (submitBet [0, 1] [] gMid "p2" BetAction.call none).dealer.acted = [] ∧
    (submitBet [0, 1] [] gMid "p2" BetAction.call none).dealer.phase =
      (if gMid.dealer.phase = Phase.bet1 then Phase.bet2 else Phase.snipe) := by
  have h := (C5_completion_contract [0, 1] [] gMid "p2" BetAction.call none
    (by decide)).2.1 (by decide)
  exact ⟨h.1, h.2.1, h.2.2.2⟩

/-! ## Turn pointer after actions and transitions (claim C8) -/

/-- A betting state with three players where the zero-chip second player
is next in turn order and the third has not acted. -/
def gC8 : Game where
  dealer :=
    { phase := Phase.bet1
      currentTurn := 0
      turnOrder := ["p1", "p2", "p3"]
      communityCards := [5, 9]
      pot := 0
      currentBet := 0
      draws := []
      roundNumber := 1
      roundResults := []
      actionHistory := []
      acted := [] }
  players := [("p1", { pA with chips := 5 }),
              ("p2", { pB with chips := 0 }),
              ("p3", { pA with chips := 7, hand := [3, 4] })]

/-- A three-player state whose first seat is folded. -/
def gFold3 : Game where
  dealer :=
    { phase := Phase.bet1
      currentTurn := 1
      turnOrder := ["p1", "p2", "p3"]
      communityCards := [5, 9]
      pot := 0
      currentBet := 0
      draws := []
      roundNumber := 1
      roundResults := []
      actionHistory := []
      acted := [] }
  players := [("p1", { pA with folded := true }),
              ("p2", pB),
              ("p3", { pA with hand := [3, 4] })]

/-- Claim C8 counterexample: after an accepted check that leaves the
phase incomplete, the turn index lands on the non-folded second seat
whose chips are 0; and a phase transition resets the turn index to 0
even though seat 0 is folded. -/
theorem C8_turn_pointer_cex :
    (betAccepted gC8 "p1" BetAction.check none = true ∧
     ¬ specBetComplete (postAction gC8 "p1" BetAction.check none) ∧
     betsComplete (postAction gC8 "p1" BetAction.check none) = false ∧
     (submitBet [] [] gC8 "p1" BetAction.check none).dealer.currentTurn = 1 ∧
     gC8.dealer.turnOrder.get? 1 = some "p2" ∧
     (getP (submitBet [] [] gC8 "p1" BetAction.check none) "p2").folded = false ∧
     (getP (submitBet [] [] gC8 "p1" BetAction.check none) "p2").chips = 0) ∧
    ((advancePhase [] [] gFold3).dealer.currentTurn = 0 ∧
     gFold3.dealer.turnOrder.get? 0 = some "p1" ∧
     (getP (advancePhase [] [] gFold3) "p1").folded = true) := by
  decide

theorem nextTurn_lt (skip : Nat → Bool) (L : Nat) (hL : 0 < L) :
    ∀ (fuel idx : Nat), nextTurn skip L idx fuel < L := by
  intro fuel
  induction fuel with
  | zero => intro idx; exact Nat.mod_lt _ hL
  | succ n ih =>
    intro idx
    unfold nextTurn
    by_cases hs : skip ((idx + 1) % L)
    · rw [if_pos hs]
      exact ih _
    · rw [if_neg hs]
      exact Nat.mod_lt _ hL

theorem nextTurn_not_skip (skip : Nat → Bool) (L : Nat) :
    ∀ (fuel idx : Nat),
      (∃ k, 1 ≤ k ∧ k ≤ fuel ∧ skip ((idx + k) % L) = false) →
      skip (nextTurn skip L idx fuel) = false := by
  intro fuel
  induction fuel with
  | zero =>
    rintro idx ⟨k, hk1, hk2, -⟩
    omega
  | succ n ih =>
    rintro idx ⟨k, hk1, hk2, hk3⟩
    unfold nextTurn
    by_cases hs : skip ((idx + 1) % L)
    · rw [if_pos hs]
      apply ih
      have hk1' : 2 ≤ k := by
        rcases Nat.lt_or_ge k 2 with h | h
        · exfalso
          have : k = 1 := by omega
          rw [this] at hk3
          rw [hk3] at hs
          exact Bool.noConfusion hs
        · exact h
      refine ⟨k - 1, by omega, by omega, ?_⟩
      have hmod : ((idx + 1) % L + (k - 1)) % L = (idx + k) % L := by
        rw [Nat.mod_add_mod]
        congr 1
        omega
      rw [hmod]
      exact hk3
    · rw [if_neg hs]
      exact Bool.eq_false_iff.mpr hs

theorem exists_step_to (L idx j : Nat) (hL : 0 < L) (hj : j < L) :
    ∃ k, 1 ≤ k ∧ k ≤ L ∧ (idx + k) % L = j := by
  set r := idx % L with hr
  have hrL : r < L := Nat.mod_lt _ hL
  by_cases h : r < j
  · refine ⟨j - r, by omega, by omega, ?_⟩
    rw [← Nat.mod_add_mod, ← hr]
    have : r + (j - r) = j := by omega
    rw [this]
    exact Nat.mod_eq_of_lt hj
  · refine ⟨L + j - r, by omega, by omega, ?_⟩
    rw [← Nat.mod_add_mod, ← hr]
    have : r + (L + j - r) = L + j := by omega
    rw [this, Nat.add_mod_left]
    exact Nat.mod_eq_of_lt hj

theorem betsComplete_false_active (h : Game)
    (hc : betsComplete h = false) :
    ∃ id ∈ h.dealer.turnOrder, (getP h id).folded = false := by
  unfold betsComplete at hc
  rw [Bool.or_eq_false_iff] at hc
  have hall := hc.1
  unfold allActed at hall
  rw [List.all_eq_false] at hall
  obtain ⟨id, hid, -⟩ := hall
  unfold activePlayers at hid
  exact ⟨id, List.mem_of_mem_filter hid, by simpa using List.of_mem_filter hid⟩

theorem advancePhase_turn_zero (rs rsB : List Nat) (h : Game) :
    (advancePhase rs rsB h).dealer.currentTurn = 0 := by
  have hf := (phaseReset_chips h).2.2
  unfold advancePhase
  dsimp only
  cases hp : h.dealer.phase <;> (rw [hf.trans hp]; try rfl)

/-- Claim C8 (amended): after an accepted betting action that does not
complete the phase, the turn index is in range and points at a
non-folded seat — the chips of that seat are never consulted by the
advance loop; after an accepted action that does complete the phase, and
after every phase transition (including the resolution handoff out of
the snipe phase), the turn index is reset to 0 unconditionally, whatever
the folded status or chips of seat 0. -/
theorem C8_turn_contract :
    (∀ rs rsB g pid action amount,
      betAccepted g pid action amount = true →
      betsComplete (postAction g pid action amount) = false →
      (submitBet rs rsB g pid action amount).dealer.currentTurn <
          g.dealer.turnOrder.length ∧
      (getP (submitBet rs rsB g pid action amount)
        (g.dealer.turnOrder.getD
          (submitBet rs rsB g pid action amount).dealer.currentTurn "")).folded
        = false) ∧
    (∀ rs rsB g pid action amount,
      betAccepted g pid action amount = true →
      betsComplete (postAction g pid action amount) = true →
      (submitBet rs rsB g pid action amount).dealer.currentTurn = 0) ∧
    (∀ rs rsB h, (advancePhase rs rsB h).dealer.currentTurn = 0) := by
  refine ⟨?_, ?_, ?_⟩
  · intro rs rsB g pid action amount hacc hcomp
    set P := postAction g pid action amount with hP
    have hsub : submitBet rs rsB g pid action amount = advanceTurn P := by
      rw [submitBet_accepted_eq rs rsB g pid action amount hacc, ← hP,
        if_neg (by simp [hcomp])]
    have hto : P.dealer.turnOrder = g.dealer.turnOrder := postAction_turnOrder g pid action amount
    obtain ⟨id, hid, hidf⟩ := betsComplete_false_active P hcomp
    obtain ⟨⟨j, hjlt⟩, hjid⟩ := List.mem_iff_get.mp hid
    have hL : 0 < P.dealer.turnOrder.length := by omega
    set skip : Nat → Bool := fun i =>
      (getP P (P.dealer.turnOrder.getD i "")).folded with hskip
    have hskipj : skip j = false := by
      rw [hskip]
      dsimp only
      rw [List.get_eq_getElem] at hjid
      rw [List.getD_eq_getElem?_getD, List.getElem?_eq_getElem hjlt,
        Option.getD_some, hjid]
      exact hidf
    obtain ⟨k, hk1, hk2, hk3⟩ :=
      exists_step_to P.dealer.turnOrder.length P.dealer.currentTurn j hL hjlt
    have hnext : skip (nextTurn skip P.dealer.turnOrder.length
        P.dealer.currentTurn (2 * P.dealer.turnOrder.length)) = false := by
      apply nextTurn_not_skip
      exact ⟨k, hk1, by omega, by rw [hk3]; exact hskipj⟩
    have hlt : nextTurn skip P.dealer.turnOrder.length P.dealer.currentTurn
        (2 * P.dealer.turnOrder.length) < P.dealer.turnOrder.length :=
      nextTurn_lt skip _ hL _ _
    have hres_turn : (advanceTurn P).dealer.currentTurn =
        nextTurn skip P.dealer.turnOrder.length P.dealer.currentTurn
          (2 * P.dealer.turnOrder.length) := rfl
    have hres_getP : ∀ q, getP (advanceTurn P) q = getP P q := fun _ => rfl
    rw [hsub]
    constructor
    · rw [hres_turn, ← hto]
      exact hlt
    · rw [hres_turn, hres_getP, ← hto]
      exact hnext
  · intro rs rsB g pid action amount hacc hcomp
    rw [submitBet_accepted_eq rs rsB g pid action amount hacc, if_pos hcomp]
    exact advancePhase_turn_zero rs rsB _
  · intro rs rsB h
    exact advancePhase_turn_zero rs rsB h

/-- Witness for the amended C8 theorem: in the three-player state the
check leaves the phase incomplete and the turn lands in range on a
non-folded seat; the completing call in the raised state resets the turn
index to 0; and a standalone phase transition resets it to 0 as well. -/
theorem C8_turn_contract_witness :
    ((submitBet [] [] gC8 "p1" BetAction.check none).dealer.currentTurn <
        gC8.dealer.turnOrder.length ∧
     (getP (submitBet [] [] gC8 "p1" BetAction.check none)
        (gC8.dealer.turnOrder.getD
          (submitBet [] [] gC8 "p1" BetAction.check none).dealer.currentTurn
          "")).folded = false) ∧
    (submitBet [0, 1] [] gMid "p2" BetAction.call none).dealer.currentTurn = 0 ∧
    (advancePhase [] [] gMid).dealer.currentTurn = 0 :=
  ⟨C8_turn_contract.1 [] [] gC8 "p1" BetAction.check none (by decide) (by decide),
   C8_turn_contract.2.1 [0, 1] [] gMid "p2" BetAction.call none (by decide)
     (by decide),
   C8_turn_contract.2.2 [] [] gMid⟩

/-! ## The hand evaluator matches the count-based classification (claim C3) -/

theorem handValues_contains (cards : List Nat) (n : Nat) :
    (handValues cards).contains n = true ↔ hasOfAKind cards n := by
  unfold handValues hasOfAKind
  rw [List.contains_iff_exists_mem_beq]
  constructor
  · rintro ⟨x, hx, hb⟩
    obtain ⟨v, hv, rfl⟩ := List.mem_map.mp hx
    exact ⟨v, List.mem_dedup.mp hv, (beq_iff_eq.mp hb).symm⟩
  · rintro ⟨v, hv, hc⟩
    exact ⟨cards.count v, List.mem_map.mpr ⟨v, List.mem_dedup.mpr hv, rfl⟩,
      by simp [hc]⟩

theorem fullHouse_iff (cards : List Nat) :
    ((handValues cards).contains 3 && (handValues cards).contains 2) = true ↔
      fullHouseSpec cards := by
  rw [Bool.and_eq_true, handValues_contains, handValues_contains]
  unfold hasOfAKind fullHouseSpec
  constructor
  · rintro ⟨⟨v, hv, hv3⟩, ⟨w, hw, hw2⟩⟩
    refine ⟨v, hv, w, hw, ?_, hv3, hw2⟩
    intro he
    rw [he, hw2] at hv3
    exact absurd hv3 (by norm_num)
  · rintro ⟨v, hv, w, hw, hne, hv3, hw2⟩
    exact ⟨⟨v, hv, hv3⟩, ⟨w, hw, hw2⟩⟩

theorem twoPair_iff (cards : List Nat) :
    (((handValues cards).filter (· == 2)).length == 2) = true ↔
      twoPairSpec cards := by
  unfold handValues twoPairSpec
  rw [beq_iff_eq, List.filter_map, List.length_map]
  have hmm : ∀ u, u ∈ cards.dedup.filter ((· == 2) ∘ fun v => cards.count v) ↔
      u ∈ cards ∧ cards.count u = 2 := by
    intro u
    rw [List.mem_filter, List.mem_dedup]
    constructor
    · rintro ⟨h1, h2⟩
      exact ⟨h1, by simpa using h2⟩
    · rintro ⟨h1, h2⟩
      exact ⟨h1, by simpa using h2⟩
  have hnd : (cards.dedup.filter ((· == 2) ∘ fun v => cards.count v)).Nodup :=
    List.Nodup.filter _ (List.nodup_dedup cards)
  constructor
  · intro hlen
    obtain ⟨a, b, hab⟩ := List.length_eq_two.mp hlen
    have hnd2 : a ≠ b := by
      rw [hab] at hnd
      have := (List.nodup_cons.mp hnd).1
      simpa using this
    have hamem := (hmm a).mp (by rw [hab]; exact List.mem_cons_self a [b])
    have hbmem := (hmm b).mp (by rw [hab]; simp)
    refine ⟨a, hamem.1, b, hbmem.1, hnd2, hamem.2, hbmem.2, ?_⟩
    intro u hu hcu
    have : u ∈ cards.dedup.filter ((· == 2) ∘ fun v => cards.count v) :=
      (hmm u).mpr ⟨hu, hcu⟩
    rw [hab] at this
    simpa using this
  · rintro ⟨v, hv, w, hw, hne, hv2, hw2, huniq⟩
    have hsub : cards.dedup.filter ((· == 2) ∘ fun v => cards.count v) ⊆ [v, w] := by
      intro u hu
      obtain ⟨hu1, hu2⟩ := (hmm u).mp hu
      rcases huniq u hu1 hu2 with rfl | rfl <;> simp
    have hsub2 : [v, w] ⊆ cards.dedup.filter ((· == 2) ∘ fun v => cards.count v) := by
      intro u hu
      rcases List.mem_cons.mp hu with rfl | hu
      · exact (hmm u).mpr ⟨hv, hv2⟩
      · rw [List.mem_singleton] at hu
        subst hu
        exact (hmm u).mpr ⟨hw, hw2⟩
    have h1 := (List.subperm_of_subset hnd hsub).length_le
    have h2 := (List.subperm_of_subset (show ([v, w]).Nodup by simp [hne]) hsub2).length_le
    have hl2 : ([v, w]).length = 2 := rfl
    rw [hl2] at h1 h2
    omega

/-! ### The straight scan agrees with the consecutive-run property -/

theorem sorted_get_strict (s : List Nat) (hs : List.Sorted (· ≤ ·) s)
    (hn : s.Nodup) (i j : Nat) (hi : i < s.length) (hj : j < s.length)
    (hij : i < j) : s.get ⟨i, hi⟩ < s.get ⟨j, hj⟩ := by
  have hle : s.get ⟨i, hi⟩ ≤ s.get ⟨j, hj⟩ :=
    List.pairwise_iff_get.mp hs ⟨i, hi⟩ ⟨j, hj⟩ hij
  have hne : s.get ⟨i, hi⟩ ≠ s.get ⟨j, hj⟩ := by
    intro he
    have := hn.get_inj_iff.mp he
    rw [Fin.mk.injEq] at this
    omega
  exact lt_of_le_of_ne hle hne

theorem sorted_get_le (s : List Nat) (hs : List.Sorted (· ≤ ·) s)
    (hn : s.Nodup) (i j : Nat) (hi : i < s.length) (hj : j < s.length)
    (hij : i ≤ j) : s.get ⟨i, hi⟩ ≤ s.get ⟨j, hj⟩ := by
  rcases Nat.eq_or_lt_of_le hij with rfl | h
  · rfl
  · exact le_of_lt (sorted_get_strict s hs hn i j hi hj h)

theorem sorted_get_add (s : List Nat) (hs : List.Sorted (· ≤ ·) s)
    (hn : s.Nodup) :
    ∀ (k i : Nat) (hi : i < s.length) (h : i + k < s.length),
      s.get ⟨i, hi⟩ + k ≤ s.get ⟨i + k, h⟩ := by
  intro k
  induction k with
  | zero => intro i hi h; simp
  | succ n ih =>
    intro i hi h
    have h1 : i + n < s.length := by omega
    have h2 := ih i hi h1
    have h3 : s.get ⟨i + n, h1⟩ < s.get ⟨i + (n + 1), h⟩ :=
      sorted_get_strict s hs hn (i + n) (i + n + 1) h1 (by omega) (by omega)
    omega

theorem indexOf_mono (s : List Nat) (hs : List.Sorted (· ≤ ·) s)
    (hn : s.Nodup) (v w : Nat) (hv : v ∈ s) (hw : w ∈ s) (hvw : v < w) :
    s.indexOf v < s.indexOf w := by
  by_contra hcon
  push_neg at hcon
  have hvl : s.indexOf v < s.length := List.indexOf_lt_length.mpr hv
  have hwl : s.indexOf w < s.length := List.indexOf_lt_length.mpr hw
  have hgv : s.get ⟨s.indexOf v, hvl⟩ = v := by
    rw [List.get_eq_getElem]
    exact List.getElem_indexOf hvl
  have hgw : s.get ⟨s.indexOf w, hwl⟩ = w := by
    rw [List.get_eq_getElem]
    exact List.getElem_indexOf hwl
  rcases Nat.eq_or_lt_of_le hcon with he | hlt
  · have hvweq : v = w := by
      rw [← hgv, ← hgw]
      congr 1
      rw [Fin.mk.injEq]
      exact he.symm
    omega
  · have := sorted_get_strict s hs hn _ _ hwl hvl hlt
    rw [hgv, hgw] at this
    omega

theorem getD_eq_get (s : List Nat) (i : Nat) (h : i < s.length) :
    s.getD i 0 = s.get ⟨i, h⟩ := by
  rw [List.getD_eq_getElem?_getD, List.getElem?_eq_getElem h, Option.getD_some,
    List.get_eq_getElem]

theorem isStraight_iff (cards : List Nat) :
    isStraight cards = true ↔ straightSpec cards := by
  unfold isStraight
  set s := distinctSorted cards with hsdef
  have hperm : List.Perm s cards.dedup := List.perm_insertionSort _ _
  have hs : List.Sorted (· ≤ ·) s := List.sorted_insertionSort _ _
  have hn : s.Nodup := hperm.nodup_iff.mpr (List.nodup_dedup cards)
  have hmem : ∀ x, x ∈ s ↔ x ∈ cards := by
    intro x
    rw [hperm.mem_iff, List.mem_dedup]
  constructor
  · intro htr
    by_cases hlen : s.length < 5
    · rw [if_pos hlen] at htr
      exact Bool.noConfusion htr
    · rw [if_neg hlen] at htr
      unfold hasWindow at htr
      rw [List.any_eq_true] at htr
      obtain ⟨i, hirange, hwin⟩ := htr
      rw [Bool.and_eq_true, decide_eq_true_eq, beq_iff_eq] at hwin
      obtain ⟨hi4, hsub⟩ := hwin
      have hi : i < s.length := by omega
      rw [getD_eq_get s (i + 4) hi4, getD_eq_get s i hi] at hsub
      have hge := sorted_get_add s hs hn 4 i hi hi4
      have hwin4 : s.get ⟨i + 4, hi4⟩ = s.get ⟨i, hi⟩ + 4 := by omega
      refine ⟨s.get ⟨i, hi⟩, (hmem _).mp (s.get_mem _ _), ?_⟩
      intro k hk
      have hik : i + k < s.length := by omega
      have h1 := sorted_get_add s hs hn k i hi hik
      have h2 := sorted_get_add s hs hn (4 - k) (i + k) hik
        (by rw [show i + k + (4 - k) = i + 4 by omega]; exact hi4)
      rw [show s.get ⟨i + k + (4 - k), _⟩ = s.get ⟨i + 4, hi4⟩ by
        congr 1; rw [Fin.mk.injEq]; omega] at h2
      have : s.get ⟨i + k, hik⟩ = s.get ⟨i, hi⟩ + k := by omega
      rw [← this]
      exact (hmem _).mp (s.get_mem _ _)
  · rintro ⟨a, ha, hall⟩
    have ha0 : a ∈ s := (hmem a).mpr ha
    have ha1 : (a + 1) ∈ s := (hmem _).mpr (hall 1 (by omega))
    have ha2 : (a + 2) ∈ s := (hmem _).mpr (hall 2 (by omega))
    have ha3 : (a + 3) ∈ s := (hmem _).mpr (hall 3 (by omega))
    have ha4 : (a + 4) ∈ s := (hmem _).mpr (hall 4 (by omega))
    have h01 : s.indexOf a < s.indexOf (a + 1) :=
      indexOf_mono s hs hn a (a + 1) ha0 ha1 (by omega)
    have h12 : s.indexOf (a + 1) < s.indexOf (a + 2) :=
      indexOf_mono s hs hn (a + 1) (a + 2) ha1 ha2 (by omega)
    have h23 : s.indexOf (a + 2) < s.indexOf (a + 3) :=
      indexOf_mono s hs hn (a + 2) (a + 3) ha2 ha3 (by omega)
    have h34 : s.indexOf (a + 3) < s.indexOf (a + 4) :=
      indexOf_mono s hs hn (a + 3) (a + 4) ha3 ha4 (by omega)
    have hi0l : s.indexOf a < s.length := List.indexOf_lt_length.mpr ha0
    have hi4l : s.indexOf (a + 4) < s.length := List.indexOf_lt_length.mpr ha4
    have hchain : s.indexOf a + 4 ≤ s.indexOf (a + 4) := by omega
    have hi04 : s.indexOf a + 4 < s.length := by omega
    have hg0 : s.get ⟨s.indexOf a, hi0l⟩ = a := by
      rw [List.get_eq_getElem]
      exact List.getElem_indexOf hi0l
    have hg4 : s.get ⟨s.indexOf (a + 4), hi4l⟩ = a + 4 := by
      rw [List.get_eq_getElem]
      exact List.getElem_indexOf hi4l
    have hup := sorted_get_add s hs hn 4 (s.indexOf a) hi0l hi04
    have hdown := sorted_get_le s hs hn (s.indexOf a + 4) (s.indexOf (a + 4))
      hi04 hi4l hchain
    have hval : s.get ⟨s.indexOf a + 4, hi04⟩ = a + 4 := by
      rw [hg0] at hup
      rw [hg4] at hdown
      omega
    have hlen : ¬s.length < 5 := by omega
    rw [if_neg hlen]
    unfold hasWindow
    rw [List.any_eq_true]
    refine ⟨s.indexOf a, List.mem_range.mpr (by omega), ?_⟩
    rw [Bool.and_eq_true, decide_eq_true_eq, beq_iff_eq]
    refine ⟨hi04, ?_⟩
    rw [getD_eq_get s (s.indexOf a + 4) hi04, getD_eq_get s (s.indexOf a) hi0l,
      hval, hg0]
    omega

/-- Claim C3: evaluateHand classifies every list of card values exactly
by the claimed priority order over value counts — four of a kind (7),
else full house (6), else straight over the distinct values (5), else
three of a kind (4), else exactly-two-pairs (3), else pair (2), else
high card (1). -/
theorem C3_evaluateHand_matches_spec (cards : List Nat) :
    (evaluateHand cards).1 = (specEval cards).1 ∧
    (evaluateHand cards).2.1 = (specEval cards).2 := by
  unfold evaluateHand specEval
  dsimp only
  by_cases h4 : hasOfAKind cards 4
  · rw [(handValues_contains cards 4).mpr h4, if_pos h4]
    exact ⟨rfl, rfl⟩
  · rw [Bool.eq_false_iff.mpr (fun ht => h4 ((handValues_contains cards 4).mp ht)),
      if_neg h4]
    by_cases hfh : fullHouseSpec cards
    · rw [(fullHouse_iff cards).mpr hfh, if_pos hfh]
      exact ⟨rfl, rfl⟩
    · rw [Bool.eq_false_iff.mpr (fun ht => hfh ((fullHouse_iff cards).mp ht)),
        if_neg hfh]
      by_cases hst : straightSpec cards
      · rw [(isStraight_iff cards).mpr hst, if_pos hst]
        exact ⟨rfl, rfl⟩
      · rw [Bool.eq_false_iff.mpr (fun ht => hst ((isStraight_iff cards).mp ht)),
          if_neg hst]
        by_cases h3 : hasOfAKind cards 3
        · rw [(handValues_contains cards 3).mpr h3, if_pos h3]
          exact ⟨rfl, rfl⟩
        · rw [Bool.eq_false_iff.mpr
              (fun ht => h3 ((handValues_contains cards 3).mp ht)), if_neg h3]
          by_cases htp : twoPairSpec cards
          · rw [(twoPair_iff cards).mpr htp, if_pos htp]
            exact ⟨rfl, rfl⟩
          · rw [Bool.eq_false_iff.mpr (fun ht => htp ((twoPair_iff cards).mp ht)),
              if_neg htp]
            by_cases h2 : hasOfAKind cards 2
            · rw [(handValues_contains cards 2).mpr h2, if_pos h2]
              exact ⟨rfl, rfl⟩
            · rw [Bool.eq_false_iff.mpr
                  (fun ht => h2 ((handValues_contains cards 2).mp ht)), if_neg h2]
              exact ⟨rfl, rfl⟩

end Sniper
